import Mathlib

/-!
Verification of the maze game (src/script.js): maze generation by the
iterative hole-digging (randomized DFS) algorithm, ball physics with
friction, circle-vs-grid collision resolution, and the game state machine.

The JavaScript source is shallowly embedded:
* the grid `this.grid` (0 = path, 1 = wall) is represented by the finite
  set `carved` of PATH coordinates `(row, col) : ℤ × ℤ`; `cellOf` recovers
  the numeric cell value;
* `Math.random()` is modelled by an oracle `rand : ℕ → ℕ`; the k-th call
  of the generator picks index `rand k % candidates.length`, so every
  theorem quantifies over all possible random behaviours;
* the `while` loop of `Maze.generate` is run on explicit fuel
  (`genLoopF`); `genFuel` is proved to be enough fuel for the loop to
  reach its exit condition (empty stack);
* continuous quantities (ball position/velocity, collision geometry) are
  real numbers.
-/

open Filter

/-- Grid coordinates, as `(row, col)`. -/
abbrev Pos : Type := ℤ × ℤ

/-- State of the hole-digging generator: the set of carved (PATH) cells,
the backtracking stack, and the number of `Math.random()` calls so far. -/
structure GenState where
  carved : Finset Pos
  stack : List Pos
  steps : ℕ

/-- Numeric cell value of `this.grid[r][c]`: 0 = PATH, 1 = WALL. -/
def cellOf (carved : Finset Pos) (p : Pos) : ℕ :=
  if p ∈ carved then 0 else 1

/-- The four carving directions of `Maze.generate` (up, down, left, right),
as `(dr, dc)` offsets of length two. -/
def directions : List Pos := [(-2, 0), (2, 0), (0, -2), (0, 2)]

/-- `nextR > 0 && nextR < rows - 1 && nextC > 0 && nextC < cols - 1`:
the cell lies strictly inside the border. -/
def inInterior (rows cols : ℤ) (p : Pos) : Prop :=
  0 < p.1 ∧ p.1 < rows - 1 ∧ 0 < p.2 ∧ p.2 < cols - 1

instance (rows cols : ℤ) (p : Pos) : Decidable (inInterior rows cols p) := by
  unfold inInterior; infer_instance

/-- The filter over `directions` in `Maze.generate`: a direction is kept
when the target two cells away is strictly inside the border and still a
wall. -/
def validDirs (rows cols : ℤ) (carved : Finset Pos) (cur : Pos) : List Pos :=
  directions.filter fun d =>
    decide (inInterior rows cols (cur.1 + d.1, cur.2 + d.2) ∧
      cellOf carved (cur.1 + d.1, cur.2 + d.2) = 1)

/-- One iteration of the generation loop with the stack split as
`cur :: rest`: carve towards a random valid direction (marking both the
intermediate wall cell and the target as PATH and pushing the target), or
pop the stack when no direction is valid. -/
def genStep (rows cols : ℤ) (rand : ℕ → ℕ) (carved : Finset Pos) (steps : ℕ)
    (cur : Pos) (rest : List Pos) : GenState :=
  let vd := validDirs rows cols carved cur
  if h : vd = [] then
    ⟨carved, rest, steps⟩
  else
    let dir := vd.get ⟨rand steps % vd.length, Nat.mod_lt _ (List.length_pos.mpr h)⟩
    let next : Pos := (cur.1 + dir.1, cur.2 + dir.2)
    let wall : Pos := (cur.1 + dir.1 / 2, cur.2 + dir.2 / 2)
    ⟨insert next (insert wall carved), next :: cur :: rest, steps + 1⟩

/-- The `while (stack.length > 0)` loop of `Maze.generate`, run on fuel. -/
def genLoopF (rows cols : ℤ) (rand : ℕ → ℕ) : ℕ → GenState → GenState
  | 0, st => st
  | n + 1, st =>
    match st.stack with
    | [] => st
    | cur :: rest => genLoopF rows cols rand n (genStep rows cols rand st.carved st.steps cur rest)

/-- All cells strictly inside the border. -/
def innerCells (rows cols : ℤ) : Finset Pos :=
  Finset.Ioo 0 (rows - 1) ×ˢ Finset.Ioo 0 (cols - 1)

/-- Fuel sufficient for the generation loop to empty its stack. -/
def genFuel (rows cols : ℤ) : ℕ :=
  2 * (innerCells rows cols).card + 2

/-- `Maze.generate`: initialize every cell to WALL (empty carved set),
carve the start cell (1,1), and run the hole-digging loop. -/
def Maze.generate (rows cols : ℤ) (rand : ℕ → ℕ) : GenState :=
  genLoopF rows cols rand (genFuel rows cols) ⟨{((1 : ℤ), (1 : ℤ))}, [((1 : ℤ), (1 : ℤ))], 0⟩

/-- The maze object built by the `Maze` constructor: dimensions, grid,
`start = {x: 1, y: 1}` and `goal = {x: cols-2, y: rows-2}` (possibly
relocated by the post-generation check). `start` and `goal` are `(x, y)`
pairs, so the grid cell of `goal` is `(goal.2, goal.1)`. -/
structure MazeModel where
  cols : ℤ
  rows : ℤ
  carved : Finset Pos
  start : ℤ × ℤ
  goal : ℤ × ℤ
deriving DecidableEq

/-- The `Maze` constructor: store `cols`/`rows` unchecked, set start and
goal, generate, then relocate the goal one cell left (preferred) or up if
the designated goal cell ended up WALL. -/
def Maze.construct (cols rows : ℤ) (rand : ℕ → ℕ) : MazeModel :=
  let g := Maze.generate rows cols rand
  let goal0 : ℤ × ℤ := (cols - 2, rows - 2)
  let goal1 : ℤ × ℤ :=
    if cellOf g.carved (goal0.2, goal0.1) = 1 then
      (if cellOf g.carved (goal0.2, goal0.1 - 1) = 0 then (goal0.1 - 1, goal0.2)
       else if cellOf g.carved (goal0.2 - 1, goal0.1) = 0 then (goal0.1, goal0.2 - 1)
       else goal0)
    else goal0
  ⟨cols, rows, g.carved, (1, 1), goal1⟩

/-- Two cells are orthogonally adjacent on the grid. -/
def adjacent (p q : Pos) : Prop :=
  (p.1 = q.1 ∧ (p.2 = q.2 + 1 ∨ q.2 = p.2 + 1)) ∨
  (p.2 = q.2 ∧ (p.1 = q.1 + 1 ∨ q.1 = p.1 + 1))

instance (p q : Pos) : Decidable (adjacent p q) := by
  unfold adjacent; infer_instance

/-- Flood-fill reachability inside a set of PATH cells: the reflexive
transitive closure of stepping to an adjacent cell of the set. -/
def Reach (S : Finset Pos) (p q : Pos) : Prop :=
  Relation.ReflTransGen (fun a b => adjacent a b ∧ b ∈ S) p q

/-- Number of adjacent PATH-PATH links of a set of cells: each unordered
link is counted once, from its left (respectively top) member. -/
def linkCount (S : Finset Pos) : ℕ :=
  S.sum fun p =>
    (if (p.1, p.2 + 1) ∈ S then 1 else 0) + (if (p.1 + 1, p.2) ∈ S then 1 else 0)

-- Basic lemmas about the generator's building blocks.

/-- Loop measure: twice the number of uncarved interior cells plus the
stack length; it strictly decreases at every iteration. -/
def measureOf (rows cols : ℤ) (st : GenState) : ℕ :=
  2 * ((innerCells rows cols) \ st.carved).card + st.stack.length

/-- Invariant of the generation loop. `carved` holds the start cell and
only interior, non-(even,even) cells; every carved cell with an even
coordinate is a dug-through wall whose two odd neighbours on that axis are
carved; stack cells are carved odd-odd cells; every carved cell is
flood-fill reachable from the start; the carved cells form a tree
(links = cells - 1); and every carved odd-odd cell is either still on the
stack or fully explored (no valid carving direction). -/
structure GenInv (rows cols : ℤ) (st : GenState) : Prop where
  startMem : ((1 : ℤ), (1 : ℤ)) ∈ st.carved
  bdd : ∀ p ∈ st.carved, inInterior rows cols p
  nee : ∀ p ∈ st.carved, p.1 % 2 = 1 ∨ p.2 % 2 = 1
  stkC : ∀ p ∈ st.stack, p ∈ st.carved
  stkO : ∀ p ∈ st.stack, p.1 % 2 = 1 ∧ p.2 % 2 = 1
  wH : ∀ p ∈ st.carved, p.2 % 2 = 0 →
    ((p.1, p.2 - 1) : Pos) ∈ st.carved ∧ ((p.1, p.2 + 1) : Pos) ∈ st.carved
  wV : ∀ p ∈ st.carved, p.1 % 2 = 0 →
    ((p.1 - 1, p.2) : Pos) ∈ st.carved ∧ ((p.1 + 1, p.2) : Pos) ∈ st.carved
  reach : ∀ p ∈ st.carved, Reach st.carved ((1 : ℤ), (1 : ℤ)) p
  tree : linkCount st.carved + 1 = st.carved.card
  closed : ∀ p ∈ st.carved, p.1 % 2 = 1 → p.2 % 2 = 1 →
    p ∈ st.stack ∨ validDirs rows cols st.carved p = []

namespace CFG

/-- `CFG.friction = 0.96`. -/
noncomputable def friction : ℝ := 0.96

/-- `CFG.acceleration = 0.5`. -/
noncomputable def acceleration : ℝ := 0.5

/-- `CFG.ballRadiusRatio = 0.35` of the source (ball radius as a share of
the cell size). -/
noncomputable def ballRadiusScale : ℝ := 0.35

end CFG

/-- Kinematic state of the ball: position, velocity and radius. -/
structure Ball where
  x : ℝ
  y : ℝ
  vx : ℝ
  vy : ℝ
  radius : ℝ

/-- `Ball.update(ax, ay)`: apply the acceleration to the velocity, then
friction, then move the position by the updated velocity. -/
noncomputable def Ball.update (b : Ball) (ax ay : ℝ) : Ball :=
  let vx := (b.vx + ax) * CFG.friction
  let vy := (b.vy + ay) * CFG.friction
  ⟨b.x + vx, b.y + vy, vx, vy, b.radius⟩

/-- `Ball.update` iterated n times with a fixed acceleration input. -/
noncomputable def iterBall (b : Ball) (ax ay : ℝ) : ℕ → Ball
  | 0 => b
  | n + 1 => Ball.update (iterBall b ax ay n) ax ay

/-- `Math.max(lo, Math.min(v, lo + size))`: clamp a coordinate onto a
rectangle extent, giving the closest point of the rectangle per axis. -/
noncomputable def closestOn (lo size v : ℝ) : ℝ :=
  max lo (min v (lo + size))

/-- `dx = ball.x - closestX` of `Maze.resolveCollision`. -/
noncomputable def collDx (b : Ball) (rectX rectSize : ℝ) : ℝ :=
  b.x - closestOn rectX rectSize b.x

/-- `dy = ball.y - closestY` of `Maze.resolveCollision`. -/
noncomputable def collDy (b : Ball) (rectY rectSize : ℝ) : ℝ :=
  b.y - closestOn rectY rectSize b.y

/-- `distanceSq = dx * dx + dy * dy` of `Maze.resolveCollision`. -/
noncomputable def collDistSq (b : Ball) (rectX rectY rectSize : ℝ) : ℝ :=
  collDx b rectX rectSize * collDx b rectX rectSize +
    collDy b rectY rectSize * collDy b rectY rectSize

/-- `Maze.resolveCollision(ball, rectX, rectY, rectSize)`: closest-point
circle vs axis-aligned-square resolution; if the circle overlaps the
rectangle and the squared distance is positive, push the circle out along
the contact normal by the overlap, and if the velocity points into the
surface, reflect its normal component damped by restitution 0.5. -/
noncomputable def resolveCollision (b : Ball) (rectX rectY rectSize : ℝ) : Ball :=
  let dx := collDx b rectX rectSize
  let dy := collDy b rectY rectSize
  let distanceSq := dx * dx + dy * dy
  if distanceSq < b.radius * b.radius ∧ 0 < distanceSq then
    let distance := Real.sqrt distanceSq
    let overlap := b.radius - distance
    let nx := dx / distance
    let ny := dy / distance
    let dot := b.vx * nx + b.vy * ny
    if dot < 0 then
      ⟨b.x + nx * overlap, b.y + ny * overlap,
        b.vx - (1 + 0.5) * dot * nx, b.vy - (1 + 0.5) * dot * ny, b.radius⟩
    else
      ⟨b.x + nx * overlap, b.y + ny * overlap, b.vx, b.vy, b.radius⟩
  else b

/-- The inclusive integer range `lo..hi` scanned by the nested `for`
loops of `Maze.checkCollision`. -/
def intRange (lo hi : ℤ) : List ℤ :=
  (List.range (hi + 1 - lo).toNat).map fun i : ℕ => lo + (i : ℤ)

/-- The inner `for (c = minC; c <= maxC; c++)` loop of
`Maze.checkCollision` on row `r`: resolve the ball against every cell of
the row that is out of bounds or a WALL. -/
noncomputable def checkCellRow (m : MazeModel) (cs : ℝ) (minC maxC r : ℤ) (b0 : Ball) : Ball :=
  (intRange minC maxC).foldl
    (fun bc c =>
      if r < 0 ∨ m.rows ≤ r ∨ c < 0 ∨ m.cols ≤ c ∨ cellOf m.carved ((r, c) : Pos) = 1 then
        resolveCollision bc ((c : ℝ) * cs) ((r : ℝ) * cs) cs
      else bc)
    b0

/-- `Maze.checkCollision(ball, cellSize)`: scan the cells covered by the
ball's bounding box and resolve against each out-of-bounds or WALL cell,
in row-major order. The maze itself is returned unchanged (the method
never writes to the grid, start or goal). -/
noncomputable def checkCollisionS (m : MazeModel) (b : Ball) (cs : ℝ) : MazeModel × Ball :=
  let minC := ⌊(b.x - b.radius) / cs⌋
  let maxC := ⌊(b.x + b.radius) / cs⌋
  let minR := ⌊(b.y - b.radius) / cs⌋
  let maxR := ⌊(b.y + b.radius) / cs⌋
  (m, (intRange minR maxR).foldl (fun br r => checkCellRow m cs minC maxC r br) b)

/-- The session phases of the `Game` class ('IDLE', 'PLAYING',
'GAMEOVER'; the specification calls the last one FINISHED). -/
inductive Phase where
  | IDLE
  | PLAYING
  | GAMEOVER
deriving DecidableEq

/-- The game state: phase, start timestamp, geometry, maze, ball and the
input vector. -/
structure GameState where
  phase : Phase
  startTime : ℝ
  cellSize : ℝ
  cols : ℤ
  rows : ℤ
  maze : MazeModel
  ball : Ball
  input : ℝ × ℝ

/-- `Game.startGame()`: build a fresh maze, place the ball at the start
cell's centre with zero velocity, switch to PLAYING, reset the clock and
clear the input. -/
noncomputable def startGame (g : GameState) (rand : ℕ → ℕ) (now : ℝ) : GameState :=
  let m := Maze.construct g.cols g.rows rand
  let startX := (m.start.1 : ℝ) * g.cellSize + g.cellSize / 2
  let startY := (m.start.2 : ℝ) * g.cellSize + g.cellSize / 2
  let radius := g.cellSize * CFG.ballRadiusScale
  { g with
    maze := m
    ball := ⟨startX, startY, 0, 0, radius⟩
    phase := Phase.PLAYING
    startTime := now
    input := (0, 0) }

/-- The ball after the physics and collision steps of one `Game.update`
frame. -/
noncomputable def postPhysicsBall (g : GameState) : Ball :=
  (checkCollisionS g.maze
    (Ball.update g.ball (g.input.1 * CFG.acceleration) (g.input.2 * CFG.acceleration))
    g.cellSize).2

/-- The distance from a ball's centre to the goal cell's centre computed
by the goal check of `Game.update`. -/
noncomputable def goalCheckDist (g : GameState) (b : Ball) : ℝ :=
  let gx := ((g.maze.goal.1 : ℝ)) * g.cellSize + g.cellSize / 2
  let gy := ((g.maze.goal.2 : ℝ)) * g.cellSize + g.cellSize / 2
  Real.sqrt ((b.x - gx) * (b.x - gx) + (b.y - gy) * (b.y - gy))

/-- `Game.update()`: integrate the ball, resolve collisions, then check
goal proximity and end the game when within half a cell of the goal
centre. -/
noncomputable def gameUpdate (g : GameState) : GameState :=
  let b2 := postPhysicsBall g
  if goalCheckDist g b2 < g.cellSize * 0.5 then
    { g with
      ball := b2
      phase := Phase.GAMEOVER }
  else
    { g with ball := b2 }

/-- One tick of `Game.loop()`: a no-op unless the phase is PLAYING. -/
noncomputable def gameLoop (g : GameState) : GameState :=
  if g.phase = Phase.PLAYING then gameUpdate g else g

-- C2: terminal velocity of the ball integration.

/-- Concrete ball for the C6 witness: circle at (50, 20) with radius 14,
velocity (-3, 5), overlapping the right face of the wall square at the
origin with side 40 (closest point (40, 20), distanceSq = 100). -/
noncomputable def bounceBall : Ball := ⟨50, 20, -3, 5, 14⟩

/-- Concrete ball for the C7 witness: same face contact as the C6 witness
(distance 10, radius 14, overlap 4). -/
noncomputable def pushBall : Ball := ⟨50, 20, -3, 5, 14⟩

/-- Maze for the C10 and C9 witnesses: a 3-by-3 grid with the single PATH
cell (1,1). -/
def wMaze : MazeModel := ⟨3, 3, {((1 : ℤ), (1 : ℤ))}, (1, 1), (1, 1)⟩

/-- Ball for the C10 witness: sitting at the centre of the PATH cell
(1,1) with cell size 1 and radius 0.35, overlapping nothing. -/
noncomputable def freeBall : Ball := ⟨1.5, 1.5, 0.2, -0.1, 0.35⟩

/-- Ball for the C9 witness: resting at the centre of cell (1,1) of
`wMaze`, which is also the goal cell. -/
noncomputable def wBall9 : Ball := ⟨1.5, 1.5, 0, 0, 0.35⟩

/-- An IDLE game state for the C9 witness. -/
noncomputable def wGame1 : GameState := ⟨Phase.IDLE, 5, 1, 3, 3, wMaze, wBall9, (0, 0)⟩

/-- A PLAYING game state at the goal for the C9 witness. -/
noncomputable def wGame2 : GameState := ⟨Phase.PLAYING, 5, 1, 3, 3, wMaze, wBall9, (0, 0)⟩

/-- A GAMEOVER game state for the C9 witness. -/
noncomputable def wGame3 : GameState := ⟨Phase.GAMEOVER, 5, 1, 3, 3, wMaze, wBall9, (0, 0)⟩

theorem cellOf_eq_one {carved : Finset Pos} {p : Pos} :
    cellOf carved p = 1 ↔ p ∉ carved := by
  unfold cellOf
  by_cases h : p ∈ carved <;> simp [h]

theorem cellOf_eq_zero {carved : Finset Pos} {p : Pos} :
    cellOf carved p = 0 ↔ p ∈ carved := by
  unfold cellOf
  by_cases h : p ∈ carved <;> simp [h]

theorem mem_validDirs {rows cols : ℤ} {carved : Finset Pos} {cur d : Pos}
    (h : d ∈ validDirs rows cols carved cur) :
    d ∈ directions ∧ inInterior rows cols (cur.1 + d.1, cur.2 + d.2) ∧
      (cur.1 + d.1, cur.2 + d.2) ∉ carved := by
  unfold validDirs at h
  rw [List.mem_filter] at h
  refine ⟨h.1, ?_, ?_⟩
  · have := of_decide_eq_true h.2
    exact this.1
  · have := of_decide_eq_true h.2
    exact cellOf_eq_one.mp this.2

theorem validDirs_eq_nil_iff {rows cols : ℤ} {carved : Finset Pos} {cur : Pos} :
    validDirs rows cols carved cur = [] ↔
      ∀ d ∈ directions, inInterior rows cols (cur.1 + d.1, cur.2 + d.2) →
        (cur.1 + d.1, cur.2 + d.2) ∈ carved := by
  unfold validDirs
  rw [List.filter_eq_nil_iff]
  constructor
  · intro h d hd hint
    by_contra hmem
    exact h d hd (decide_eq_true ⟨hint, cellOf_eq_one.mpr hmem⟩)
  · intro h d hd hdec
    have hp := of_decide_eq_true hdec
    exact cellOf_eq_one.mp hp.2 (h d hd hp.1)

theorem validDirs_nil_mono {rows cols : ℤ} {S T : Finset Pos} {cur : Pos}
    (hST : S ⊆ T) (h : validDirs rows cols S cur = []) :
    validDirs rows cols T cur = [] := by
  rw [validDirs_eq_nil_iff] at h ⊢
  intro d hd hint
  exact hST (h d hd hint)

theorem dir_cases {d : Pos} (h : d ∈ directions) :
    d = ((-2 : ℤ), (0 : ℤ)) ∨ d = ((2 : ℤ), (0 : ℤ)) ∨
    d = ((0 : ℤ), (-2 : ℤ)) ∨ d = ((0 : ℤ), (2 : ℤ)) := by
  simp only [directions, List.mem_cons, List.not_mem_nil, or_false] at h
  exact h

theorem mem_interior_iff {rows cols : ℤ} {p : Pos} :
    p ∈ innerCells rows cols ↔ inInterior rows cols p := by
  unfold innerCells inInterior
  rw [Finset.mem_product, Finset.mem_Ioo, Finset.mem_Ioo]
  tauto

-- Counting adjacent links when inserting a fresh cell.

theorem pair_eq_iff {r c : ℤ} {b : Pos} : ((r, c) : Pos) = b ↔ r = b.1 ∧ c = b.2 :=
  Prod.ext_iff

theorem eq_pair_iff {r c : ℤ} {a : Pos} : a = ((r, c) : Pos) ↔ a.1 = r ∧ a.2 = c :=
  Prod.ext_iff

theorem ite_or_add {a b : Prop} [Decidable a] [Decidable b] (h : a → ¬b) :
    (if a ∨ b then (1 : ℕ) else 0) = (if a then 1 else 0) + (if b then 1 else 0) := by
  by_cases ha : a <;> by_cases hb : b <;> simp [ha, hb]
  exact h ha hb

theorem linkCount_insert {S : Finset Pos} {x : Pos} (hx : x ∉ S) :
    linkCount (insert x S) =
      linkCount S
      + ((if (x.1, x.2 + 1) ∈ S then 1 else 0) + (if (x.1 + 1, x.2) ∈ S then 1 else 0))
      + ((if (x.1, x.2 - 1) ∈ S then 1 else 0) + (if (x.1 - 1, x.2) ∈ S then 1 else 0)) := by
  have hne1 : ((x.1, x.2 + 1) : Pos) ≠ x := by
    rw [Ne, pair_eq_iff]
    omega
  have hne2 : ((x.1 + 1, x.2) : Pos) ≠ x := by
    rw [Ne, pair_eq_iff]
    omega
  have step1 : linkCount (insert x S) =
      ((if ((x.1, x.2 + 1) : Pos) ∈ S then (1 : ℕ) else 0)
        + (if ((x.1 + 1, x.2) : Pos) ∈ S then 1 else 0))
      + ∑ p ∈ S,
          ((if ((p.1, p.2 + 1) : Pos) ∈ S then (1 : ℕ) else 0)
            + (if ((p.1 + 1, p.2) : Pos) ∈ S then 1 else 0)
            + ((if p = ((x.1, x.2 - 1) : Pos) then 1 else 0)
              + (if p = ((x.1 - 1, x.2) : Pos) then 1 else 0))) := by
    unfold linkCount
    rw [Finset.sum_insert hx]
    have m1 : (((x.1, x.2 + 1) : Pos) ∈ insert x S) ↔ (((x.1, x.2 + 1) : Pos) ∈ S) := by
      rw [Finset.mem_insert]
      exact or_iff_right hne1
    have m2 : (((x.1 + 1, x.2) : Pos) ∈ insert x S) ↔ (((x.1 + 1, x.2) : Pos) ∈ S) := by
      rw [Finset.mem_insert]
      exact or_iff_right hne2
    rw [if_congr m1 rfl rfl, if_congr m2 rfl rfl]
    congr 1
    refine Finset.sum_congr rfl fun p hp => ?_
    have e1 : (((p.1, p.2 + 1) : Pos) ∈ insert x S) ↔
        (p = ((x.1, x.2 - 1) : Pos) ∨ ((p.1, p.2 + 1) : Pos) ∈ S) := by
      rw [Finset.mem_insert]
      have : (((p.1, p.2 + 1) : Pos) = x) ↔ (p = ((x.1, x.2 - 1) : Pos)) := by
        rw [pair_eq_iff, eq_pair_iff]
        omega
      rw [this]
    have e2 : (((p.1 + 1, p.2) : Pos) ∈ insert x S) ↔
        (p = ((x.1 - 1, x.2) : Pos) ∨ ((p.1 + 1, p.2) : Pos) ∈ S) := by
      rw [Finset.mem_insert]
      have : (((p.1 + 1, p.2) : Pos) = x) ↔ (p = ((x.1 - 1, x.2) : Pos)) := by
        rw [pair_eq_iff, eq_pair_iff]
        omega
      rw [this]
    have x1 : p = ((x.1, x.2 - 1) : Pos) → ¬(((p.1, p.2 + 1) : Pos) ∈ S) := by
      intro he hm
      apply hx
      have : ((p.1, p.2 + 1) : Pos) = x := by
        rw [he]
        rw [pair_eq_iff]
        exact ⟨rfl, by omega⟩
      rw [this] at hm
      exact hm
    have x2 : p = ((x.1 - 1, x.2) : Pos) → ¬(((p.1 + 1, p.2) : Pos) ∈ S) := by
      intro he hm
      apply hx
      have : ((p.1 + 1, p.2) : Pos) = x := by
        rw [he]
        rw [pair_eq_iff]
        exact ⟨by omega, rfl⟩
      rw [this] at hm
      exact hm
    rw [if_congr e1 rfl rfl, if_congr e2 rfl rfl, ite_or_add x1, ite_or_add x2]
    ring
  rw [step1]
  unfold linkCount
  rw [Finset.sum_add_distrib, Finset.sum_add_distrib, Finset.sum_add_distrib,
    Finset.sum_ite_eq' S ((x.1, x.2 - 1) : Pos) (fun _ => (1 : ℕ)),
    Finset.sum_ite_eq' S ((x.1 - 1, x.2) : Pos) (fun _ => (1 : ℕ))]
  omega

-- Termination of the generation loop: each iteration either carves a fresh
-- interior cell or pops the stack.

theorem genStep_measure_lt (rows cols : ℤ) (rand : ℕ → ℕ) (carved : Finset Pos)
    (steps : ℕ) (cur : Pos) (rest : List Pos) :
    measureOf rows cols (genStep rows cols rand carved steps cur rest) <
      measureOf rows cols ⟨carved, cur :: rest, steps⟩ := by
  unfold genStep
  by_cases h : validDirs rows cols carved cur = []
  · rw [dif_pos h]
    unfold measureOf
    simp
  · rw [dif_neg h]
    unfold measureOf
    simp only [List.length_cons]
    have hdir : (validDirs rows cols carved cur).get
        ⟨rand steps % (validDirs rows cols carved cur).length,
          Nat.mod_lt _ (List.length_pos.mpr h)⟩ ∈ validDirs rows cols carved cur :=
      List.get_mem _ _ _
    set dir := (validDirs rows cols carved cur).get
        ⟨rand steps % (validDirs rows cols carved cur).length,
          Nat.mod_lt _ (List.length_pos.mpr h)⟩ with hdirdef
    obtain ⟨-, hint, hnotc⟩ := mem_validDirs hdir
    have hmem : ((cur.1 + dir.1, cur.2 + dir.2) : Pos) ∈ innerCells rows cols \ carved := by
      rw [Finset.mem_sdiff, mem_interior_iff]
      exact ⟨hint, hnotc⟩
    have hsub : innerCells rows cols \
        insert (cur.1 + dir.1, cur.2 + dir.2) (insert (cur.1 + dir.1 / 2, cur.2 + dir.2 / 2) carved)
        ⊂ innerCells rows cols \ carved := by
      constructor
      · intro p hp
        rw [Finset.mem_sdiff] at hp ⊢
        refine ⟨hp.1, fun hpc => hp.2 ?_⟩
        exact Finset.mem_insert_of_mem (Finset.mem_insert_of_mem hpc)
      · intro hsup
        have := hsup hmem
        rw [Finset.mem_sdiff] at this
        exact this.2 (Finset.mem_insert_self _ _)
    have hcard := Finset.card_lt_card hsub
    omega

theorem genLoopF_stack_nil (rows cols : ℤ) (rand : ℕ → ℕ) :
    ∀ (n : ℕ) (st : GenState), measureOf rows cols st ≤ n →
      (genLoopF rows cols rand n st).stack = [] := by
  intro n
  induction n with
  | zero =>
    intro st h
    unfold measureOf at h
    have : st.stack.length = 0 := by omega
    rw [List.length_eq_zero] at this
    unfold genLoopF
    exact this
  | succ n ih =>
    intro st h
    unfold genLoopF
    cases hst : st.stack with
    | nil => exact hst
    | cons cur rest =>
      apply ih
      have := genStep_measure_lt rows cols rand st.carved st.steps cur rest
      have hst' : measureOf rows cols ⟨st.carved, cur :: rest, st.steps⟩ =
          measureOf rows cols st := by
        unfold measureOf
        rw [hst]
      omega

theorem generate_stack_nil (rows cols : ℤ) (rand : ℕ → ℕ) :
    (Maze.generate rows cols rand).stack = [] := by
  unfold Maze.generate
  apply genLoopF_stack_nil
  unfold measureOf genFuel
  have : (innerCells rows cols \ {((1 : ℤ), (1 : ℤ))}).card ≤ (innerCells rows cols).card :=
    Finset.card_le_card (Finset.sdiff_subset)
  simp only [List.length_singleton]
  omega

-- Local link-count bookkeeping for a single carve: inserting the
-- intermediate wall cell and then the target cell adds exactly one
-- adjacent link each, because the dug corridor touches no other PATH cell.

theorem mem_insert_of_ne {a b : Pos} {S : Finset Pos} (hne : a ≠ b) :
    (a ∈ insert b S) ↔ a ∈ S := by
  rw [Finset.mem_insert]
  exact or_iff_right hne

theorem pair_eq_pair {a b c d : ℤ} : ((a, b) : Pos) = ((c, d) : Pos) ↔ a = c ∧ b = d := by
  simp

theorem carve_right_facts (S : Finset Pos) (r c : ℤ)
    (hcur : ((r, c) : Pos) ∈ S)
    (hro : r % 2 = 1) (hco : c % 2 = 1)
    (hno : ∀ p ∈ S, p.1 % 2 = 1 ∨ p.2 % 2 = 1)
    (hwH : ∀ p ∈ S, p.2 % 2 = 0 → ((p.1, p.2 - 1) : Pos) ∈ S ∧ ((p.1, p.2 + 1) : Pos) ∈ S)
    (hwV : ∀ p ∈ S, p.1 % 2 = 0 → ((p.1 - 1, p.2) : Pos) ∈ S ∧ ((p.1 + 1, p.2) : Pos) ∈ S)
    (hnext : ((r, c + 2) : Pos) ∉ S) :
    ((r, c + 1) : Pos) ∉ S ∧
    ((r, c + 2) : Pos) ∉ insert ((r, c + 1) : Pos) S ∧
    linkCount (insert ((r, c + 2) : Pos) (insert ((r, c + 1) : Pos) S)) = linkCount S + 2 := by
  have hnext2 : ∀ a b : ℤ, a = r → b = c + 2 → ((a, b) : Pos) ∉ S := by
    intro a b ha hb hm
    apply hnext
    rw [show ((r, c + 2) : Pos) = ((a, b) : Pos) from by rw [pair_eq_pair]; omega]
    exact hm
  have hwall : ((r, c + 1) : Pos) ∉ S := by
    intro hmem
    have h2 : ((r, c + 1 + 1) : Pos) ∈ S := (hwH _ hmem (show (c + 1) % 2 = 0 by omega)).2
    exact hnext2 r (c + 1 + 1) rfl (by ring) h2
  have hnw : ((r, c + 2) : Pos) ≠ ((r, c + 1) : Pos) := by
    rw [Ne, pair_eq_pair]
    omega
  have hnext1 : ((r, c + 2) : Pos) ∉ insert ((r, c + 1) : Pos) S := by
    rw [mem_insert_of_ne hnw]
    exact hnext
  refine ⟨hwall, hnext1, ?_⟩
  -- neighbours of the wall cell (r, c+1) in S
  have w1 : ((r, c + 1 + 1) : Pos) ∉ S := hnext2 r (c + 1 + 1) rfl (by ring)
  have w2 : ((r + 1, c + 1) : Pos) ∉ S := by
    intro h
    rcases hno _ h with h1 | h2
    · have : (r + 1) % 2 = 1 := h1
      omega
    · have : (c + 1) % 2 = 1 := h2
      omega
  have w3 : ((r, c + 1 - 1) : Pos) ∈ S := by
    rw [show ((r, c + 1 - 1) : Pos) = ((r, c) : Pos) from by rw [pair_eq_pair]; omega]
    exact hcur
  have w4 : ((r - 1, c + 1) : Pos) ∉ S := by
    intro h
    rcases hno _ h with h1 | h2
    · have : (r - 1) % 2 = 1 := h1
      omega
    · have : (c + 1) % 2 = 1 := h2
      omega
  have step1 : linkCount (insert ((r, c + 1) : Pos) S) = linkCount S + 1 := by
    rw [linkCount_insert hwall]
    simp [w1, w2, w3, w4, hcur]
  -- neighbours of the target cell (r, c+2) in insert (r, c+1) S
  have t1 : ((r, c + 2 + 1) : Pos) ∉ insert ((r, c + 1) : Pos) S := by
    rw [mem_insert_of_ne (by rw [Ne, pair_eq_pair]; omega)]
    intro h
    have h2 : ((r, c + 2 + 1 - 1) : Pos) ∈ S := (hwH _ h (show (c + 2 + 1) % 2 = 0 by omega)).1
    exact hnext2 r (c + 2 + 1 - 1) rfl (by ring) h2
  have t2 : ((r + 1, c + 2) : Pos) ∉ insert ((r, c + 1) : Pos) S := by
    rw [mem_insert_of_ne (by rw [Ne, pair_eq_pair]; omega)]
    intro h
    have h2 : ((r + 1 - 1, c + 2) : Pos) ∈ S := (hwV _ h (show (r + 1) % 2 = 0 by omega)).1
    exact hnext2 (r + 1 - 1) (c + 2) (by ring) rfl h2
  have t3 : ((r, c + 2 - 1) : Pos) ∈ insert ((r, c + 1) : Pos) S := by
    rw [show ((r, c + 2 - 1) : Pos) = ((r, c + 1) : Pos) from by rw [pair_eq_pair]; omega]
    exact Finset.mem_insert_self _ _
  have t4 : ((r - 1, c + 2) : Pos) ∉ insert ((r, c + 1) : Pos) S := by
    rw [mem_insert_of_ne (by rw [Ne, pair_eq_pair]; omega)]
    intro h
    have h2 : ((r - 1 + 1, c + 2) : Pos) ∈ S := (hwV _ h (show (r - 1) % 2 = 0 by omega)).2
    exact hnext2 (r - 1 + 1) (c + 2) (by ring) rfl h2
  have step2 : linkCount (insert ((r, c + 2) : Pos) (insert ((r, c + 1) : Pos) S)) =
      linkCount (insert ((r, c + 1) : Pos) S) + 1 := by
    rw [linkCount_insert hnext1]
    simp [t1, t2, t3, t4, Finset.mem_insert_self]
  omega

theorem carve_left_facts (S : Finset Pos) (r c : ℤ)
    (hcur : ((r, c) : Pos) ∈ S)
    (hro : r % 2 = 1) (hco : c % 2 = 1)
    (hno : ∀ p ∈ S, p.1 % 2 = 1 ∨ p.2 % 2 = 1)
    (hwH : ∀ p ∈ S, p.2 % 2 = 0 → ((p.1, p.2 - 1) : Pos) ∈ S ∧ ((p.1, p.2 + 1) : Pos) ∈ S)
    (hwV : ∀ p ∈ S, p.1 % 2 = 0 → ((p.1 - 1, p.2) : Pos) ∈ S ∧ ((p.1 + 1, p.2) : Pos) ∈ S)
    (hnext : ((r, c - 2) : Pos) ∉ S) :
    ((r, c - 1) : Pos) ∉ S ∧
    ((r, c - 2) : Pos) ∉ insert ((r, c - 1) : Pos) S ∧
    linkCount (insert ((r, c - 2) : Pos) (insert ((r, c - 1) : Pos) S)) = linkCount S + 2 := by
  have hnext2 : ∀ a b : ℤ, a = r → b = c - 2 → ((a, b) : Pos) ∉ S := by
    intro a b ha hb hm
    apply hnext
    rw [show ((r, c - 2) : Pos) = ((a, b) : Pos) from by rw [pair_eq_pair]; omega]
    exact hm
  have hwall : ((r, c - 1) : Pos) ∉ S := by
    intro hmem
    have h2 : ((r, c - 1 - 1) : Pos) ∈ S := (hwH _ hmem (show (c - 1) % 2 = 0 by omega)).1
    exact hnext2 r (c - 1 - 1) rfl (by ring) h2
  have hnw : ((r, c - 2) : Pos) ≠ ((r, c - 1) : Pos) := by
    rw [Ne, pair_eq_pair]
    omega
  have hnext1 : ((r, c - 2) : Pos) ∉ insert ((r, c - 1) : Pos) S := by
    rw [mem_insert_of_ne hnw]
    exact hnext
  refine ⟨hwall, hnext1, ?_⟩
  have w1 : ((r, c - 1 + 1) : Pos) ∈ S := by
    rw [show ((r, c - 1 + 1) : Pos) = ((r, c) : Pos) from by rw [pair_eq_pair]; omega]
    exact hcur
  have w2 : ((r + 1, c - 1) : Pos) ∉ S := by
    intro h
    rcases hno _ h with h1 | h2
    · have : (r + 1) % 2 = 1 := h1
      omega
    · have : (c - 1) % 2 = 1 := h2
      omega
  have w3 : ((r, c - 1 - 1) : Pos) ∉ S := hnext2 r (c - 1 - 1) rfl (by ring)
  have w4 : ((r - 1, c - 1) : Pos) ∉ S := by
    intro h
    rcases hno _ h with h1 | h2
    · have : (r - 1) % 2 = 1 := h1
      omega
    · have : (c - 1) % 2 = 1 := h2
      omega
  have step1 : linkCount (insert ((r, c - 1) : Pos) S) = linkCount S + 1 := by
    rw [linkCount_insert hwall]
    simp [w1, w2, w3, w4, hcur]
  have t1 : ((r, c - 2 + 1) : Pos) ∈ insert ((r, c - 1) : Pos) S := by
    rw [show ((r, c - 2 + 1) : Pos) = ((r, c - 1) : Pos) from by rw [pair_eq_pair]; omega]
    exact Finset.mem_insert_self _ _
  have t2 : ((r + 1, c - 2) : Pos) ∉ insert ((r, c - 1) : Pos) S := by
    rw [mem_insert_of_ne (by rw [Ne, pair_eq_pair]; omega)]
    intro h
    have h2 : ((r + 1 - 1, c - 2) : Pos) ∈ S := (hwV _ h (show (r + 1) % 2 = 0 by omega)).1
    exact hnext2 (r + 1 - 1) (c - 2) (by ring) rfl h2
  have t3 : ((r, c - 2 - 1) : Pos) ∉ insert ((r, c - 1) : Pos) S := by
    rw [mem_insert_of_ne (by rw [Ne, pair_eq_pair]; omega)]
    intro h
    have h2 : ((r, c - 2 - 1 + 1) : Pos) ∈ S := (hwH _ h (show (c - 2 - 1) % 2 = 0 by omega)).2
    exact hnext2 r (c - 2 - 1 + 1) rfl (by ring) h2
  have t4 : ((r - 1, c - 2) : Pos) ∉ insert ((r, c - 1) : Pos) S := by
    rw [mem_insert_of_ne (by rw [Ne, pair_eq_pair]; omega)]
    intro h
    have h2 : ((r - 1 + 1, c - 2) : Pos) ∈ S := (hwV _ h (show (r - 1) % 2 = 0 by omega)).2
    exact hnext2 (r - 1 + 1) (c - 2) (by ring) rfl h2
  have step2 : linkCount (insert ((r, c - 2) : Pos) (insert ((r, c - 1) : Pos) S)) =
      linkCount (insert ((r, c - 1) : Pos) S) + 1 := by
    rw [linkCount_insert hnext1]
    simp [t1, t2, t3, t4, Finset.mem_insert_self]
  omega

theorem carve_down_facts (S : Finset Pos) (r c : ℤ)
    (hcur : ((r, c) : Pos) ∈ S)
    (hro : r % 2 = 1) (hco : c % 2 = 1)
    (hno : ∀ p ∈ S, p.1 % 2 = 1 ∨ p.2 % 2 = 1)
    (hwH : ∀ p ∈ S, p.2 % 2 = 0 → ((p.1, p.2 - 1) : Pos) ∈ S ∧ ((p.1, p.2 + 1) : Pos) ∈ S)
    (hwV : ∀ p ∈ S, p.1 % 2 = 0 → ((p.1 - 1, p.2) : Pos) ∈ S ∧ ((p.1 + 1, p.2) : Pos) ∈ S)
    (hnext : ((r + 2, c) : Pos) ∉ S) :
    ((r + 1, c) : Pos) ∉ S ∧
    ((r + 2, c) : Pos) ∉ insert ((r + 1, c) : Pos) S ∧
    linkCount (insert ((r + 2, c) : Pos) (insert ((r + 1, c) : Pos) S)) = linkCount S + 2 := by
  have hnext2 : ∀ a b : ℤ, a = r + 2 → b = c → ((a, b) : Pos) ∉ S := by
    intro a b ha hb hm
    apply hnext
    rw [show ((r + 2, c) : Pos) = ((a, b) : Pos) from by rw [pair_eq_pair]; omega]
    exact hm
  have hwall : ((r + 1, c) : Pos) ∉ S := by
    intro hmem
    have h2 : ((r + 1 + 1, c) : Pos) ∈ S := (hwV _ hmem (show (r + 1) % 2 = 0 by omega)).2
    exact hnext2 (r + 1 + 1) c (by ring) rfl h2
  have hnw : ((r + 2, c) : Pos) ≠ ((r + 1, c) : Pos) := by
    rw [Ne, pair_eq_pair]
    omega
  have hnext1 : ((r + 2, c) : Pos) ∉ insert ((r + 1, c) : Pos) S := by
    rw [mem_insert_of_ne hnw]
    exact hnext
  refine ⟨hwall, hnext1, ?_⟩
  have w1 : ((r + 1, c + 1) : Pos) ∉ S := by
    intro h
    rcases hno _ h with h1 | h2
    · have : (r + 1) % 2 = 1 := h1
      omega
    · have : (c + 1) % 2 = 1 := h2
      omega
  have w2 : ((r + 1 + 1, c) : Pos) ∉ S := hnext2 (r + 1 + 1) c (by ring) rfl
  have w3 : ((r + 1, c - 1) : Pos) ∉ S := by
    intro h
    rcases hno _ h with h1 | h2
    · have : (r + 1) % 2 = 1 := h1
      omega
    · have : (c - 1) % 2 = 1 := h2
      omega
  have w4 : ((r + 1 - 1, c) : Pos) ∈ S := by
    rw [show ((r + 1 - 1, c) : Pos) = ((r, c) : Pos) from by rw [pair_eq_pair]; omega]
    exact hcur
  have step1 : linkCount (insert ((r + 1, c) : Pos) S) = linkCount S + 1 := by
    rw [linkCount_insert hwall]
    simp [w1, w2, w3, w4, hcur]
  have t1 : ((r + 2, c + 1) : Pos) ∉ insert ((r + 1, c) : Pos) S := by
    rw [mem_insert_of_ne (by rw [Ne, pair_eq_pair]; omega)]
    intro h
    have h2 : ((r + 2, c + 1 - 1) : Pos) ∈ S := (hwH _ h (show (c + 1) % 2 = 0 by omega)).1
    exact hnext2 (r + 2) (c + 1 - 1) rfl (by ring) h2
  have t2 : ((r + 2 + 1, c) : Pos) ∉ insert ((r + 1, c) : Pos) S := by
    rw [mem_insert_of_ne (by rw [Ne, pair_eq_pair]; omega)]
    intro h
    have h2 : ((r + 2 + 1 - 1, c) : Pos) ∈ S := (hwV _ h (show (r + 2 + 1) % 2 = 0 by omega)).1
    exact hnext2 (r + 2 + 1 - 1) c (by ring) rfl h2
  have t3 : ((r + 2, c - 1) : Pos) ∉ insert ((r + 1, c) : Pos) S := by
    rw [mem_insert_of_ne (by rw [Ne, pair_eq_pair]; omega)]
    intro h
    have h2 : ((r + 2, c - 1 + 1) : Pos) ∈ S := (hwH _ h (show (c - 1) % 2 = 0 by omega)).2
    exact hnext2 (r + 2) (c - 1 + 1) rfl (by ring) h2
  have t4 : ((r + 2 - 1, c) : Pos) ∈ insert ((r + 1, c) : Pos) S := by
    rw [show ((r + 2 - 1, c) : Pos) = ((r + 1, c) : Pos) from by rw [pair_eq_pair]; omega]
    exact Finset.mem_insert_self _ _
  have step2 : linkCount (insert ((r + 2, c) : Pos) (insert ((r + 1, c) : Pos) S)) =
      linkCount (insert ((r + 1, c) : Pos) S) + 1 := by
    rw [linkCount_insert hnext1]
    simp [t1, t2, t3, t4, Finset.mem_insert_self]
  omega

theorem carve_up_facts (S : Finset Pos) (r c : ℤ)
    (hcur : ((r, c) : Pos) ∈ S)
    (hro : r % 2 = 1) (hco : c % 2 = 1)
    (hno : ∀ p ∈ S, p.1 % 2 = 1 ∨ p.2 % 2 = 1)
    (hwH : ∀ p ∈ S, p.2 % 2 = 0 → ((p.1, p.2 - 1) : Pos) ∈ S ∧ ((p.1, p.2 + 1) : Pos) ∈ S)
    (hwV : ∀ p ∈ S, p.1 % 2 = 0 → ((p.1 - 1, p.2) : Pos) ∈ S ∧ ((p.1 + 1, p.2) : Pos) ∈ S)
    (hnext : ((r - 2, c) : Pos) ∉ S) :
    ((r - 1, c) : Pos) ∉ S ∧
    ((r - 2, c) : Pos) ∉ insert ((r - 1, c) : Pos) S ∧
    linkCount (insert ((r - 2, c) : Pos) (insert ((r - 1, c) : Pos) S)) = linkCount S + 2 := by
  have hnext2 : ∀ a b : ℤ, a = r - 2 → b = c → ((a, b) : Pos) ∉ S := by
    intro a b ha hb hm
    apply hnext
    rw [show ((r - 2, c) : Pos) = ((a, b) : Pos) from by rw [pair_eq_pair]; omega]
    exact hm
  have hwall : ((r - 1, c) : Pos) ∉ S := by
    intro hmem
    have h2 : ((r - 1 - 1, c) : Pos) ∈ S := (hwV _ hmem (show (r - 1) % 2 = 0 by omega)).1
    exact hnext2 (r - 1 - 1) c (by ring) rfl h2
  have hnw : ((r - 2, c) : Pos) ≠ ((r - 1, c) : Pos) := by
    rw [Ne, pair_eq_pair]
    omega
  have hnext1 : ((r - 2, c) : Pos) ∉ insert ((r - 1, c) : Pos) S := by
    rw [mem_insert_of_ne hnw]
    exact hnext
  refine ⟨hwall, hnext1, ?_⟩
  have w1 : ((r - 1, c + 1) : Pos) ∉ S := by
    intro h
    rcases hno _ h with h1 | h2
    · have : (r - 1) % 2 = 1 := h1
      omega
    · have : (c + 1) % 2 = 1 := h2
      omega
  have w2 : ((r - 1 + 1, c) : Pos) ∈ S := by
    rw [show ((r - 1 + 1, c) : Pos) = ((r, c) : Pos) from by rw [pair_eq_pair]; omega]
    exact hcur
  have w3 : ((r - 1, c - 1) : Pos) ∉ S := by
    intro h
    rcases hno _ h with h1 | h2
    · have : (r - 1) % 2 = 1 := h1
      omega
    · have : (c - 1) % 2 = 1 := h2
      omega
  have w4 : ((r - 1 - 1, c) : Pos) ∉ S := hnext2 (r - 1 - 1) c (by ring) rfl
  have step1 : linkCount (insert ((r - 1, c) : Pos) S) = linkCount S + 1 := by
    rw [linkCount_insert hwall]
    simp [w1, w2, w3, w4, hcur]
  have t1 : ((r - 2, c + 1) : Pos) ∉ insert ((r - 1, c) : Pos) S := by
    rw [mem_insert_of_ne (by rw [Ne, pair_eq_pair]; omega)]
    intro h
    have h2 : ((r - 2, c + 1 - 1) : Pos) ∈ S := (hwH _ h (show (c + 1) % 2 = 0 by omega)).1
    exact hnext2 (r - 2) (c + 1 - 1) rfl (by ring) h2
  have t2 : ((r - 2 + 1, c) : Pos) ∈ insert ((r - 1, c) : Pos) S := by
    rw [show ((r - 2 + 1, c) : Pos) = ((r - 1, c) : Pos) from by rw [pair_eq_pair]; omega]
    exact Finset.mem_insert_self _ _
  have t3 : ((r - 2, c - 1) : Pos) ∉ insert ((r - 1, c) : Pos) S := by
    rw [mem_insert_of_ne (by rw [Ne, pair_eq_pair]; omega)]
    intro h
    have h2 : ((r - 2, c - 1 + 1) : Pos) ∈ S := (hwH _ h (show (c - 1) % 2 = 0 by omega)).2
    exact hnext2 (r - 2) (c - 1 + 1) rfl (by ring) h2
  have t4 : ((r - 2 - 1, c) : Pos) ∉ insert ((r - 1, c) : Pos) S := by
    rw [mem_insert_of_ne (by rw [Ne, pair_eq_pair]; omega)]
    intro h
    have h2 : ((r - 2 - 1 + 1, c) : Pos) ∈ S := (hwV _ h (show (r - 2 - 1) % 2 = 0 by omega)).2
    exact hnext2 (r - 2 - 1 + 1) c (by ring) rfl h2
  have step2 : linkCount (insert ((r - 2, c) : Pos) (insert ((r - 1, c) : Pos) S)) =
      linkCount (insert ((r - 1, c) : Pos) S) + 1 := by
    rw [linkCount_insert hnext1]
    simp [t1, t2, t3, t4, Finset.mem_insert_self]
  omega

-- The loop invariant of the hole-digging generator.

theorem Reach_mono {S T : Finset Pos} (hST : S ⊆ T) {p q : Pos} (h : Reach S p q) :
    Reach T p q := by
  unfold Reach at h ⊢
  refine Relation.ReflTransGen.mono ?_ h
  intro a b hab
  exact ⟨hab.1, hST hab.2⟩

theorem GenInv.carve_abstract (rows cols : ℤ) {carved : Finset Pos} {r c : ℤ}
    {rest : List Pos} {steps : ℕ}
    (hinv : GenInv rows cols ⟨carved, ((r, c) : Pos) :: rest, steps⟩) (steps' : ℕ)
    {wr wc tr tc : ℤ}
    (hwi : inInterior rows cols ((wr, wc) : Pos))
    (hti : inInterior rows cols ((tr, tc) : Pos))
    (htodd : tr % 2 = 1 ∧ tc % 2 = 1)
    (hwpar : (wr % 2 = 1 ∧ wc % 2 = 0) ∨ (wr % 2 = 0 ∧ wc % 2 = 1))
    (hadj1 : adjacent ((r, c) : Pos) ((wr, wc) : Pos))
    (hadj2 : adjacent ((wr, wc) : Pos) ((tr, tc) : Pos))
    (hwHn : wc % 2 = 0 →
      (((wr, wc - 1) : Pos) = ((r, c) : Pos) ∧ ((wr, wc + 1) : Pos) = ((tr, tc) : Pos)) ∨
      (((wr, wc - 1) : Pos) = ((tr, tc) : Pos) ∧ ((wr, wc + 1) : Pos) = ((r, c) : Pos)))
    (hwVn : wr % 2 = 0 →
      (((wr - 1, wc) : Pos) = ((r, c) : Pos) ∧ ((wr + 1, wc) : Pos) = ((tr, tc) : Pos)) ∨
      (((wr - 1, wc) : Pos) = ((tr, tc) : Pos) ∧ ((wr + 1, wc) : Pos) = ((r, c) : Pos)))
    (hwns : ((wr, wc) : Pos) ∉ carved)
    (htns1 : ((tr, tc) : Pos) ∉ insert ((wr, wc) : Pos) carved)
    (hlink : linkCount (insert ((tr, tc) : Pos) (insert ((wr, wc) : Pos) carved)) =
      linkCount carved + 2) :
    GenInv rows cols ⟨insert ((tr, tc) : Pos) (insert ((wr, wc) : Pos) carved),
      ((tr, tc) : Pos) :: ((r, c) : Pos) :: rest, steps'⟩ := by
  have hsub : carved ⊆ insert ((tr, tc) : Pos) (insert ((wr, wc) : Pos) carved) := by
    intro p hp
    exact Finset.mem_insert_of_mem (Finset.mem_insert_of_mem hp)
  have hwmem : ((wr, wc) : Pos) ∈ insert ((tr, tc) : Pos) (insert ((wr, wc) : Pos) carved) :=
    Finset.mem_insert_of_mem (Finset.mem_insert_self _ _)
  have htmem : ((tr, tc) : Pos) ∈ insert ((tr, tc) : Pos) (insert ((wr, wc) : Pos) carved) :=
    Finset.mem_insert_self _ _
  have hcur : ((r, c) : Pos) ∈ carved := hinv.stkC _ (List.mem_cons_self _ _)
  constructor
  case startMem => exact hsub hinv.startMem
  case bdd =>
    intro p hp
    rcases Finset.mem_insert.mp hp with h | hp
    · rw [h]; exact hti
    rcases Finset.mem_insert.mp hp with h | hp
    · rw [h]; exact hwi
    · exact hinv.bdd _ hp
  case nee =>
    intro p hp
    rcases Finset.mem_insert.mp hp with h | hp
    · rw [h]; left; exact htodd.1
    rcases Finset.mem_insert.mp hp with h | hp
    · rw [h]
      rcases hwpar with ⟨h1, -⟩ | ⟨-, h2⟩
      · left; exact h1
      · right; exact h2
    · exact hinv.nee _ hp
  case stkC =>
    intro p hp
    rcases List.mem_cons.mp hp with h | hp
    · rw [h]; exact htmem
    rcases List.mem_cons.mp hp with h | hp
    · rw [h]; exact hsub hcur
    · exact hsub (hinv.stkC _ (List.mem_cons_of_mem _ hp))
  case stkO =>
    intro p hp
    rcases List.mem_cons.mp hp with h | hp
    · rw [h]; exact htodd
    · exact hinv.stkO _ hp
  case wH =>
    intro p hp hpe
    rcases Finset.mem_insert.mp hp with h | hp'
    · exfalso
      rw [h] at hpe
      have : tc % 2 = 0 := hpe
      omega
    rcases Finset.mem_insert.mp hp' with h | hp'
    · subst h
      rcases hwHn hpe with ⟨e1, e2⟩ | ⟨e1, e2⟩
      · rw [e1, e2]
        exact ⟨hsub hcur, htmem⟩
      · rw [e1, e2]
        exact ⟨htmem, hsub hcur⟩
    · obtain ⟨m1, m2⟩ := hinv.wH _ hp' hpe
      exact ⟨hsub m1, hsub m2⟩
  case wV =>
    intro p hp hpe
    rcases Finset.mem_insert.mp hp with h | hp'
    · exfalso
      rw [h] at hpe
      have : tr % 2 = 0 := hpe
      omega
    rcases Finset.mem_insert.mp hp' with h | hp'
    · subst h
      rcases hwVn hpe with ⟨e1, e2⟩ | ⟨e1, e2⟩
      · rw [e1, e2]
        exact ⟨hsub hcur, htmem⟩
      · rw [e1, e2]
        exact ⟨htmem, hsub hcur⟩
    · obtain ⟨m1, m2⟩ := hinv.wV _ hp' hpe
      exact ⟨hsub m1, hsub m2⟩
  case reach =>
    have hrw : Reach (insert ((tr, tc) : Pos) (insert ((wr, wc) : Pos) carved))
        ((1 : ℤ), (1 : ℤ)) ((wr, wc) : Pos) := by
      refine Relation.ReflTransGen.tail ?_ ⟨hadj1, hwmem⟩
      exact Reach_mono hsub (hinv.reach _ hcur)
    have hrt : Reach (insert ((tr, tc) : Pos) (insert ((wr, wc) : Pos) carved))
        ((1 : ℤ), (1 : ℤ)) ((tr, tc) : Pos) :=
      Relation.ReflTransGen.tail hrw ⟨hadj2, htmem⟩
    intro p hp
    rcases Finset.mem_insert.mp hp with h | hp'
    · rw [h]; exact hrt
    rcases Finset.mem_insert.mp hp' with h | hp'
    · rw [h]; exact hrw
    · exact Reach_mono hsub (hinv.reach _ hp')
  case tree =>
    have hwn : ((wr, wc) : Pos) ∉ carved := hwns
    have hc1 : (insert ((wr, wc) : Pos) carved).card = carved.card + 1 :=
      Finset.card_insert_of_not_mem hwn
    have hc2 : (insert ((tr, tc) : Pos) (insert ((wr, wc) : Pos) carved)).card =
        (insert ((wr, wc) : Pos) carved).card + 1 :=
      Finset.card_insert_of_not_mem htns1
    have htr := hinv.tree
    dsimp only at htr ⊢
    omega
  case closed =>
    intro p hp hp1 hp2
    rcases Finset.mem_insert.mp hp with h | hp'
    · left; rw [h]; exact List.mem_cons_self _ _
    rcases Finset.mem_insert.mp hp' with h | hp'
    · exfalso
      rw [h] at hp1 hp2
      have e1 : wr % 2 = 1 := hp1
      have e2 : wc % 2 = 1 := hp2
      omega
    · rcases hinv.closed _ hp' hp1 hp2 with h | h
      · left
        exact List.mem_cons_of_mem _ h
      · right
        exact validDirs_nil_mono hsub h

theorem inInterior_def {rows cols : ℤ} {p : Pos} :
    inInterior rows cols p ↔ 0 < p.1 ∧ p.1 < rows - 1 ∧ 0 < p.2 ∧ p.2 < cols - 1 :=
  Iff.rfl

theorem GenInv.genStep_pres (rows cols : ℤ) (rand : ℕ → ℕ) {carved : Finset Pos}
    {steps : ℕ} {r c : ℤ} {rest : List Pos}
    (hinv : GenInv rows cols ⟨carved, ((r, c) : Pos) :: rest, steps⟩) :
    GenInv rows cols (genStep rows cols rand carved steps ((r, c) : Pos) rest) := by
  have hcur : ((r, c) : Pos) ∈ carved := hinv.stkC _ (List.mem_cons_self _ _)
  have hodd := hinv.stkO _ (List.mem_cons_self _ _)
  have hro : r % 2 = 1 := hodd.1
  have hco : c % 2 = 1 := hodd.2
  unfold genStep
  by_cases h : validDirs rows cols carved ((r, c) : Pos) = []
  · rw [dif_pos h]
    refine ⟨hinv.startMem, hinv.bdd, hinv.nee, ?_, ?_, hinv.wH, hinv.wV, hinv.reach,
      hinv.tree, ?_⟩
    · intro p hp
      exact hinv.stkC _ (List.mem_cons_of_mem _ hp)
    · intro p hp
      exact hinv.stkO _ (List.mem_cons_of_mem _ hp)
    · intro p hp hp1 hp2
      rcases hinv.closed _ hp hp1 hp2 with hs | hs
      · rcases List.mem_cons.mp hs with he | hs
        · right
          rw [he]
          exact h
        · left
          exact hs
      · right
        exact hs
  · rw [dif_neg h]
    have hdmem : (validDirs rows cols carved ((r, c) : Pos)).get
        ⟨rand steps % (validDirs rows cols carved ((r, c) : Pos)).length,
          Nat.mod_lt _ (List.length_pos.mpr h)⟩ ∈
        validDirs rows cols carved ((r, c) : Pos) := List.get_mem _ _ _
    set d : Pos := (validDirs rows cols carved ((r, c) : Pos)).get
        ⟨rand steps % (validDirs rows cols carved ((r, c) : Pos)).length,
          Nat.mod_lt _ (List.length_pos.mpr h)⟩ with hd
    obtain ⟨hdirs, hint, hnotc⟩ := mem_validDirs hdmem
    have hrc_int : inInterior rows cols ((r, c) : Pos) := hinv.bdd _ hcur
    have hm2 : ((-2 : ℤ)) / 2 = -1 := by decide
    have hp2 : ((2 : ℤ)) / 2 = 1 := by decide
    have hz2 : ((0 : ℤ)) / 2 = 0 := by decide
    rcases dir_cases hdirs with hcase | hcase | hcase | hcase
    all_goals rw [hcase] at hint hnotc ⊢
    all_goals dsimp only at hint hnotc ⊢
    -- Up: d = (-2, 0)
    · have e1 : ((r + (-2 : ℤ), c + (0 : ℤ)) : Pos) = ((r - 2, c) : Pos) := by
        rw [pair_eq_pair]; omega
      have e2 : ((r + (-2 : ℤ) / 2, c + (0 : ℤ) / 2) : Pos) = ((r - 1, c) : Pos) := by
        rw [pair_eq_pair]; omega
      rw [e1] at hint hnotc
      rw [e1, e2]
      rw [inInterior_def] at hint hrc_int
      obtain ⟨hf1, hf2, hf3⟩ := carve_up_facts carved r c hcur hro hco hinv.nee hinv.wH
        hinv.wV hnotc
      refine GenInv.carve_abstract rows cols hinv _ ?_ ?_ ?_ ?_ ?_ ?_ ?_ ?_ hf1 hf2 hf3
      · rw [inInterior_def]
        dsimp only
        omega
      · rw [inInterior_def]
        dsimp only
        omega
      · constructor <;> omega
      · right
        constructor <;> omega
      · exact Or.inr ⟨rfl, Or.inl (by omega)⟩
      · exact Or.inr ⟨rfl, Or.inl (by omega)⟩
      · intro hbad
        exfalso
        have : c % 2 = 0 := hbad
        omega
      · intro _
        refine Or.inr ⟨?_, ?_⟩
        · rw [pair_eq_pair]; omega
        · rw [pair_eq_pair]; omega
    -- Down: d = (2, 0)
    · have e1 : ((r + (2 : ℤ), c + (0 : ℤ)) : Pos) = ((r + 2, c) : Pos) := by
        rw [pair_eq_pair]; omega
      have e2 : ((r + (2 : ℤ) / 2, c + (0 : ℤ) / 2) : Pos) = ((r + 1, c) : Pos) := by
        rw [pair_eq_pair]; omega
      rw [e1] at hint hnotc
      rw [e1, e2]
      rw [inInterior_def] at hint hrc_int
      obtain ⟨hf1, hf2, hf3⟩ := carve_down_facts carved r c hcur hro hco hinv.nee hinv.wH
        hinv.wV hnotc
      refine GenInv.carve_abstract rows cols hinv _ ?_ ?_ ?_ ?_ ?_ ?_ ?_ ?_ hf1 hf2 hf3
      · rw [inInterior_def]
        dsimp only
        omega
      · rw [inInterior_def]
        dsimp only
        omega
      · constructor <;> omega
      · right
        constructor <;> omega
      · exact Or.inr ⟨rfl, Or.inr (by omega)⟩
      · exact Or.inr ⟨rfl, Or.inr (by omega)⟩
      · intro hbad
        exfalso
        have : c % 2 = 0 := hbad
        omega
      · intro _
        refine Or.inl ⟨?_, ?_⟩
        · rw [pair_eq_pair]; omega
        · rw [pair_eq_pair]; omega
    -- Left: d = (0, -2)
    · have e1 : ((r + (0 : ℤ), c + (-2 : ℤ)) : Pos) = ((r, c - 2) : Pos) := by
        rw [pair_eq_pair]; omega
      have e2 : ((r + (0 : ℤ) / 2, c + (-2 : ℤ) / 2) : Pos) = ((r, c - 1) : Pos) := by
        rw [pair_eq_pair]; omega
      rw [e1] at hint hnotc
      rw [e1, e2]
      rw [inInterior_def] at hint hrc_int
      obtain ⟨hf1, hf2, hf3⟩ := carve_left_facts carved r c hcur hro hco hinv.nee hinv.wH
        hinv.wV hnotc
      refine GenInv.carve_abstract rows cols hinv _ ?_ ?_ ?_ ?_ ?_ ?_ ?_ ?_ hf1 hf2 hf3
      · rw [inInterior_def]
        dsimp only
        omega
      · rw [inInterior_def]
        dsimp only
        omega
      · constructor <;> omega
      · left
        constructor <;> omega
      · exact Or.inl ⟨rfl, Or.inl (by omega)⟩
      · exact Or.inl ⟨rfl, Or.inl (by omega)⟩
      · intro _
        refine Or.inr ⟨?_, ?_⟩
        · rw [pair_eq_pair]; omega
        · rw [pair_eq_pair]; omega
      · intro hbad
        exfalso
        have : r % 2 = 0 := hbad
        omega
    -- Right: d = (0, 2)
    · have e1 : ((r + (0 : ℤ), c + (2 : ℤ)) : Pos) = ((r, c + 2) : Pos) := by
        rw [pair_eq_pair]; omega
      have e2 : ((r + (0 : ℤ) / 2, c + (2 : ℤ) / 2) : Pos) = ((r, c + 1) : Pos) := by
        rw [pair_eq_pair]; omega
      rw [e1] at hint hnotc
      rw [e1, e2]
      rw [inInterior_def] at hint hrc_int
      obtain ⟨hf1, hf2, hf3⟩ := carve_right_facts carved r c hcur hro hco hinv.nee hinv.wH
        hinv.wV hnotc
      refine GenInv.carve_abstract rows cols hinv _ ?_ ?_ ?_ ?_ ?_ ?_ ?_ ?_ hf1 hf2 hf3
      · rw [inInterior_def]
        dsimp only
        omega
      · rw [inInterior_def]
        dsimp only
        omega
      · constructor <;> omega
      · left
        constructor <;> omega
      · exact Or.inl ⟨rfl, Or.inr (by omega)⟩
      · exact Or.inl ⟨rfl, Or.inr (by omega)⟩
      · intro _
        refine Or.inl ⟨?_, ?_⟩
        · rw [pair_eq_pair]; omega
        · rw [pair_eq_pair]; omega
      · intro hbad
        exfalso
        have : r % 2 = 0 := hbad
        omega

theorem GenInv.genLoopF_pres (rows cols : ℤ) (rand : ℕ → ℕ) :
    ∀ (n : ℕ) (st : GenState), GenInv rows cols st →
      GenInv rows cols (genLoopF rows cols rand n st) := by
  intro n
  induction n with
  | zero =>
    intro st h
    exact h
  | succ n ih =>
    intro st h
    obtain ⟨carved, stack, steps⟩ := st
    unfold genLoopF
    cases hst : stack with
    | nil =>
      rw [hst] at h
      exact h
    | cons cur rest =>
      obtain ⟨r, c⟩ := cur
      dsimp only
      apply ih
      apply GenInv.genStep_pres
      rw [hst] at h
      exact h

theorem GenInv.init (rows cols : ℤ) (h3r : 3 ≤ rows) (h3c : 3 ≤ cols) :
    GenInv rows cols ⟨{((1 : ℤ), (1 : ℤ))}, [((1 : ℤ), (1 : ℤ))], 0⟩ := by
  constructor
  case startMem => exact Finset.mem_singleton_self _
  case bdd =>
    intro p hp
    rw [Finset.mem_singleton] at hp
    rw [hp, inInterior_def]
    dsimp only
    omega
  case nee =>
    intro p hp
    rw [Finset.mem_singleton] at hp
    rw [hp]
    left
    decide
  case stkC =>
    intro p hp
    rw [List.mem_singleton] at hp
    rw [hp]
    exact Finset.mem_singleton_self _
  case stkO =>
    intro p hp
    rw [List.mem_singleton] at hp
    rw [hp]
    exact ⟨by decide, by decide⟩
  case wH =>
    intro p hp hpe
    exfalso
    rw [Finset.mem_singleton] at hp
    rw [hp] at hpe
    have : (1 : ℤ) % 2 = 0 := hpe
    omega
  case wV =>
    intro p hp hpe
    exfalso
    rw [Finset.mem_singleton] at hp
    rw [hp] at hpe
    have : (1 : ℤ) % 2 = 0 := hpe
    omega
  case reach =>
    intro p hp
    rw [Finset.mem_singleton] at hp
    rw [hp]
    exact Relation.ReflTransGen.refl
  case tree => decide
  case closed =>
    intro p hp _ _
    left
    rw [Finset.mem_singleton] at hp
    rw [hp]
    exact List.mem_singleton_self _

theorem generate_inv (rows cols : ℤ) (rand : ℕ → ℕ) (h3r : 3 ≤ rows) (h3c : 3 ≤ cols) :
    GenInv rows cols (Maze.generate rows cols rand) := by
  unfold Maze.generate
  exact GenInv.genLoopF_pres rows cols rand _ _ (GenInv.init rows cols h3r h3c)

-- Every interior odd-odd cell is carved at the end of generation.

theorem generate_odd_carved (rows cols : ℤ) (rand : ℕ → ℕ)
    (h3r : 3 ≤ rows) (h3c : 3 ≤ cols) :
    ∀ a b : ℤ, 0 < a → a < rows - 1 → 0 < b → b < cols - 1 →
      a % 2 = 1 → b % 2 = 1 → ((a, b) : Pos) ∈ (Maze.generate rows cols rand).carved := by
  have hinv := generate_inv rows cols rand h3r h3c
  have hnil := generate_stack_nil rows cols rand
  set S := (Maze.generate rows cols rand).carved with hS
  have hclosed : ∀ p ∈ S, p.1 % 2 = 1 → p.2 % 2 = 1 →
      validDirs rows cols S p = [] := by
    intro p hp h1 h2
    rcases hinv.closed p hp h1 h2 with h | h
    · rw [hnil] at h
      exact absurd h (List.not_mem_nil _)
    · exact h
  have hstep : ∀ a b : ℤ, a % 2 = 1 → b % 2 = 1 → ((a, b) : Pos) ∈ S →
      ∀ d ∈ directions, inInterior rows cols ((a + d.1, b + d.2) : Pos) →
        ((a + d.1, b + d.2) : Pos) ∈ S := by
    intro a b h1 h2 hmem d hd hint
    exact validDirs_eq_nil_iff.mp (hclosed ((a, b) : Pos) hmem h1 h2) d hd hint
  have hrow1 : ∀ k : ℕ, ∀ b : ℤ, b = 2 * (k : ℤ) + 1 → 0 < b → b < cols - 1 →
      ((1 : ℤ), b) ∈ S := by
    intro k
    induction k with
    | zero =>
      intro b hb _ _
      rw [show b = 1 by omega]
      exact hinv.startMem
    | succ k ih =>
      intro b hb hb0 hbc
      have hprev : (((1 : ℤ), b - 2) : Pos) ∈ S := ih (b - 2) (by push_cast at hb ⊢; omega)
        (by omega) (by omega)
      have hmem := hstep 1 (b - 2) (by decide) (by omega) hprev ((0 : ℤ), (2 : ℤ))
        (by decide) (by rw [inInterior_def]; dsimp only; omega)
      rw [show ((1 + (0 : ℤ), b - 2 + (2 : ℤ)) : Pos) = (((1 : ℤ), b) : Pos) from by
        rw [pair_eq_pair]; omega] at hmem
      exact hmem
  have hcol : ∀ j : ℕ, ∀ a b : ℤ, a = 2 * (j : ℤ) + 1 → 0 < a → a < rows - 1 →
      0 < b → b < cols - 1 → b % 2 = 1 → ((a, b) : Pos) ∈ S := by
    intro j
    induction j with
    | zero =>
      intro a b ha _ _ hb0 hbc hbo
      obtain ⟨kb, hkb⟩ : ∃ k : ℕ, b = 2 * (k : ℤ) + 1 :=
        ⟨((b - 1) / 2).toNat, by omega⟩
      rw [show a = 1 by omega]
      exact hrow1 kb b hkb hb0 hbc
    | succ j ih =>
      intro a b ha ha0 har hb0 hbc hbo
      have hprev : ((a - 2, b) : Pos) ∈ S := ih (a - 2) b (by push_cast at ha ⊢; omega)
        (by omega) (by omega) hb0 hbc hbo
      have hmem := hstep (a - 2) b (by omega) hbo hprev ((2 : ℤ), (0 : ℤ))
        (by decide) (by rw [inInterior_def]; dsimp only; omega)
      rw [show ((a - 2 + (2 : ℤ), b + (0 : ℤ)) : Pos) = ((a, b) : Pos) from by
        rw [pair_eq_pair]; omega] at hmem
      exact hmem
  intro a b ha0 har hb0 hbc hao hbo
  obtain ⟨ja, hja⟩ : ∃ j : ℕ, a = 2 * (j : ℤ) + 1 := ⟨((a - 1) / 2).toNat, by omega⟩
  exact hcol ja a b hja ha0 har hb0 hbc hbo

/-- C1: for every grid produced by `Maze.generate` with odd `cols`, `rows`
at least 5, and any random behaviour: every interior cell with odd row and
odd column is PATH; every PATH cell is reachable from the start cell (1,1)
by a flood fill through PATH cells; and the PATH cells form a tree, the
number of adjacent PATH-PATH links being the number of PATH cells minus
one. -/
theorem maze_generate_perfect (rows cols : ℤ) (rand : ℕ → ℕ)
    (h5r : 5 ≤ rows) (h5c : 5 ≤ cols) (hor : rows % 2 = 1) (hoc : cols % 2 = 1) :
    (∀ a b : ℤ, 0 < a → a < rows - 1 → 0 < b → b < cols - 1 → a % 2 = 1 → b % 2 = 1 →
      cellOf (Maze.generate rows cols rand).carved ((a, b) : Pos) = 0)
    ∧ (∀ p : Pos, cellOf (Maze.generate rows cols rand).carved p = 0 →
        Reach (Maze.generate rows cols rand).carved ((1 : ℤ), (1 : ℤ)) p)
    ∧ linkCount (Maze.generate rows cols rand).carved + 1 =
        (Maze.generate rows cols rand).carved.card := by
  have hinv := generate_inv rows cols rand (by omega) (by omega)
  refine ⟨?_, ?_, hinv.tree⟩
  · intro a b ha0 har hb0 hbc hao hbo
    rw [cellOf_eq_zero]
    exact generate_odd_carved rows cols rand (by omega) (by omega) a b ha0 har hb0 hbc hao hbo
  · intro p hp
    rw [cellOf_eq_zero] at hp
    exact hinv.reach p hp

/-- Witness for C1: the theorem applied at rows = cols = 5 and the constant
zero random oracle. -/
theorem maze_generate_perfect_witness :
    (∀ a b : ℤ, 0 < a → a < 5 - 1 → 0 < b → b < 5 - 1 → a % 2 = 1 → b % 2 = 1 →
      cellOf (Maze.generate 5 5 (fun _ => 0)).carved ((a, b) : Pos) = 0)
    ∧ (∀ p : Pos, cellOf (Maze.generate 5 5 (fun _ => 0)).carved p = 0 →
        Reach (Maze.generate 5 5 (fun _ => 0)).carved ((1 : ℤ), (1 : ℤ)) p)
    ∧ linkCount (Maze.generate 5 5 (fun _ => 0)).carved + 1 =
        (Maze.generate 5 5 (fun _ => 0)).carved.card :=
  maze_generate_perfect 5 5 (fun _ => 0) (by decide) (by decide) (by decide) (by decide)

/-- C4: for every grid produced by `Maze.generate` with odd `cols`, `rows`
at least 5, every cell of row 0, row rows-1, column 0 or column cols-1 is
WALL. -/
theorem maze_generate_border_wall (rows cols : ℤ) (rand : ℕ → ℕ)
    (h5r : 5 ≤ rows) (h5c : 5 ≤ cols) (hor : rows % 2 = 1) (hoc : cols % 2 = 1) :
    ∀ a b : ℤ, 0 ≤ a → a < rows → 0 ≤ b → b < cols →
      (a = 0 ∨ a = rows - 1 ∨ b = 0 ∨ b = cols - 1) →
      cellOf (Maze.generate rows cols rand).carved ((a, b) : Pos) = 1 := by
  intro a b _ _ _ _ hborder
  rw [cellOf_eq_one]
  intro hmem
  have hbd := (generate_inv rows cols rand (by omega) (by omega)).bdd _ hmem
  rw [inInterior_def] at hbd
  dsimp only at hbd
  omega

/-- Witness for C4: the theorem applied at rows = cols = 5, the constant
zero random oracle, and the border cell (0, 2). -/
theorem maze_generate_border_wall_witness :
    cellOf (Maze.generate 5 5 (fun _ => 0)).carved (((0 : ℤ), (2 : ℤ)) : Pos) = 1 :=
  maze_generate_border_wall 5 5 (fun _ => 0) (by decide) (by decide) (by decide) (by decide)
    0 2 (by decide) (by decide) (by decide) (by decide) (Or.inl rfl)

/-- C5: for odd dimensions at least 5, the goal cell stored in the
constructed maze (after the relocation check) is PATH; in fact the
designated goal (cols-2, rows-2) is always already PATH, so the relocation
branch never fires. -/
theorem maze_goal_path (cols rows : ℤ) (rand : ℕ → ℕ)
    (h5r : 5 ≤ rows) (h5c : 5 ≤ cols) (hor : rows % 2 = 1) (hoc : cols % 2 = 1) :
    cellOf (Maze.construct cols rows rand).carved
      ((Maze.construct cols rows rand).goal.2, (Maze.construct cols rows rand).goal.1) = 0 := by
  have hmem : ((rows - 2, cols - 2) : Pos) ∈ (Maze.generate rows cols rand).carved :=
    generate_odd_carved rows cols rand (by omega) (by omega) (rows - 2) (cols - 2)
      (by omega) (by omega) (by omega) (by omega) (by omega) (by omega)
  have hcond : cellOf (Maze.generate rows cols rand).carved ((rows - 2, cols - 2) : Pos) = 0 :=
    cellOf_eq_zero.mpr hmem
  have hcarved : (Maze.construct cols rows rand).carved = (Maze.generate rows cols rand).carved :=
    rfl
  have hgoal : (Maze.construct cols rows rand).goal = ((cols - 2 : ℤ), (rows - 2 : ℤ)) := by
    unfold Maze.construct
    dsimp only
    rw [if_neg]
    rw [hcond]
    decide
  rw [hcarved, hgoal]
  dsimp only
  exact hcond

/-- Witness for C5: the theorem applied at cols = rows = 5 and the constant
zero random oracle. -/
theorem maze_goal_path_witness :
    cellOf (Maze.construct 5 5 (fun _ => 0)).carved
      ((Maze.construct 5 5 (fun _ => 0)).goal.2, (Maze.construct 5 5 (fun _ => 0)).goal.1) = 0 :=
  maze_goal_path 5 5 (fun _ => 0) (by decide) (by decide) (by decide) (by decide)

/-- C3 (amended): the `Maze` constructor performs no validation at all:
for any `cols`, `rows` (even ones and ones below 5 included) construction
succeeds and returns a maze object storing the dimensions unchanged, with
start (1,1) and the generated grid; nothing is rejected and nothing is
auto-corrected inside the constructor (the caller, `Game.resize`, is the
place where even dimensions are decremented). -/
theorem maze_construct_unchecked (cols rows : ℤ) (rand : ℕ → ℕ) :
    (Maze.construct cols rows rand).cols = cols ∧
    (Maze.construct cols rows rand).rows = rows ∧
    (Maze.construct cols rows rand).start = (1, 1) ∧
    (Maze.construct cols rows rand).carved = (Maze.generate rows cols rand).carved :=
  ⟨rfl, rfl, rfl, rfl⟩

/-- C3 counterexample: constructing a maze with cols = rows = 4 (even and
below the minimum 5) does not fail fast and does not error: it produces an
ordinary maze object whose grid has the single carved cell (1,1). -/
theorem maze_construct_no_validation :
    (Maze.construct 4 4 (fun _ => 0)).carved = {((1 : ℤ), (1 : ℤ))} ∧
    (Maze.construct 4 4 (fun _ => 0)).cols = 4 ∧
    (Maze.construct 4 4 (fun _ => 0)).rows = 4 := by
  refine ⟨?_, rfl, rfl⟩
  decide

-- Continuous part: ball physics, circle-vs-grid collision, game loop.
-- JavaScript numbers are embedded as real numbers.

theorem iterBall_vx (b : Ball) (ax ay : ℝ) (hb : b.vx = 0) :
    ∀ n : ℕ, (iterBall b ax ay n).vx =
      CFG.friction * ax * (1 - CFG.friction ^ n) / (1 - CFG.friction) := by
  have h1 : (1 : ℝ) - CFG.friction ≠ 0 := by norm_num [CFG.friction]
  intro n
  induction n with
  | zero =>
    rw [iterBall, hb]
    simp
  | succ n ih =>
    show ((iterBall b ax ay n).vx + ax) * CFG.friction = _
    rw [ih]
    field_simp
    ring

theorem iterBall_vy (b : Ball) (ax ay : ℝ) (hb : b.vy = 0) :
    ∀ n : ℕ, (iterBall b ax ay n).vy =
      CFG.friction * ay * (1 - CFG.friction ^ n) / (1 - CFG.friction) := by
  have h1 : (1 : ℝ) - CFG.friction ≠ 0 := by norm_num [CFG.friction]
  intro n
  induction n with
  | zero =>
    rw [iterBall, hb]
    simp
  | succ n ih =>
    show ((iterBall b ax ay n).vy + ay) * CFG.friction = _
    rw [ih]
    field_simp
    ring

theorem iter_vel_tendsto (b : Ball) (ax ay : ℝ) (hbx : b.vx = 0) (hby : b.vy = 0) :
    Tendsto (fun n => (iterBall b ax ay n).vx) atTop
      (nhds (CFG.friction * ax / (1 - CFG.friction)))
    ∧ Tendsto (fun n => (iterBall b ax ay n).vy) atTop
      (nhds (CFG.friction * ay / (1 - CFG.friction))) := by
  have hk0 : (0 : ℝ) ≤ CFG.friction := by norm_num [CFG.friction]
  have hk1 : CFG.friction < 1 := by norm_num [CFG.friction]
  have hpow : Tendsto (fun n : ℕ => CFG.friction ^ n) atTop (nhds 0) :=
    tendsto_pow_atTop_nhds_zero_of_lt_one hk0 hk1
  constructor
  · have h2 : Tendsto
        (fun n : ℕ => CFG.friction * ax * (1 - CFG.friction ^ n) / (1 - CFG.friction))
        atTop (nhds (CFG.friction * ax * (1 - 0) / (1 - CFG.friction))) :=
      Tendsto.div_const (Tendsto.const_mul _ (tendsto_const_nhds.sub hpow)) _
    have h3 : CFG.friction * ax * (1 - 0) / (1 - CFG.friction) =
        CFG.friction * ax / (1 - CFG.friction) := by ring
    rw [funext (iterBall_vx b ax ay hbx), ← h3]
    exact h2
  · have h2 : Tendsto
        (fun n : ℕ => CFG.friction * ay * (1 - CFG.friction ^ n) / (1 - CFG.friction))
        atTop (nhds (CFG.friction * ay * (1 - 0) / (1 - CFG.friction))) :=
      Tendsto.div_const (Tendsto.const_mul _ (tendsto_const_nhds.sub hpow)) _
    have h3 : CFG.friction * ay * (1 - 0) / (1 - CFG.friction) =
        CFG.friction * ay / (1 - CFG.friction) := by ring
    rw [funext (iterBall_vy b ax ay hby), ← h3]
    exact h2

/-- C2 counterexample: starting from zero velocity and applying the
integration step with the constant acceleration input (0.5, 0), the stored
x-velocity does not converge to acceleration / (1 - friction) = 12.5 (it
converges to friction * acceleration / (1 - friction) = 12 instead, which
is 4 percent below, not within 1 percent). -/
theorem ball_terminal_velocity_not_12_5 :
    ¬ Tendsto (fun n => (iterBall ⟨0, 0, 0, 0, 14⟩ CFG.acceleration 0 n).vx) atTop
      (nhds (CFG.acceleration / (1 - CFG.friction))) := by
  intro hcontra
  have h12 := (iter_vel_tendsto ⟨0, 0, 0, 0, 14⟩ CFG.acceleration 0 rfl rfl).1
  have := tendsto_nhds_unique hcontra h12
  rw [CFG.acceleration, CFG.friction] at this
  norm_num at this

/-- C2 (amended): with zero initial velocity and constant acceleration
input, the stored per-axis velocity of `Ball.update` iterated N times
converges, as N grows, to friction * acceleration / (1 - friction) per
axis; with friction = 0.96 this is 12 for acceleration 0.5 (the value
acceleration / (1 - friction) = 12.5 claimed by the specification is the
mid-step velocity before the friction multiply, not the stored one). -/
theorem ball_terminal_velocity (x y r ax ay : ℝ) :
    Tendsto (fun n => (iterBall ⟨x, y, 0, 0, r⟩ ax ay n).vx) atTop
      (nhds (CFG.friction * ax / (1 - CFG.friction)))
    ∧ Tendsto (fun n => (iterBall ⟨x, y, 0, 0, r⟩ ax ay n).vy) atTop
      (nhds (CFG.friction * ay / (1 - CFG.friction)))
    ∧ CFG.friction * CFG.acceleration / (1 - CFG.friction) = 12 := by
  refine ⟨(iter_vel_tendsto _ ax ay rfl rfl).1, (iter_vel_tendsto _ ax ay rfl rfl).2, ?_⟩
  rw [CFG.acceleration, CFG.friction]
  norm_num

-- C8: degenerate contact (squared distance exactly zero) skips resolution.

/-- C8: when the squared distance from the circle centre to the closest
point of the rectangle is exactly zero, `Maze.resolveCollision` skips the
whole resolution: position and velocity are unchanged. -/
theorem resolveCollision_degenerate (b : Ball) (rX rY rS : ℝ)
    (h : collDistSq b rX rY rS = 0) :
    resolveCollision b rX rY rS = b := by
  have h' : collDx b rX rS * collDx b rX rS + collDy b rY rS * collDy b rY rS = 0 := h
  simp only [resolveCollision]
  rw [if_neg]
  rw [h']
  simp

/-- Witness for C8: a ball whose centre lies exactly on the rectangle
boundary (corner-free side contact), with distanceSq = 0. -/
theorem resolveCollision_degenerate_witness :
    resolveCollision ⟨40, 20, 1, 2, 14⟩ 0 0 40 = ⟨40, 20, 1, 2, 14⟩ :=
  resolveCollision_degenerate ⟨40, 20, 1, 2, 14⟩ 0 0 40
    (by norm_num [collDistSq, collDx, collDy, closestOn, min_def, max_def])

-- C6: the bounce flips and halves the normal velocity component and keeps
-- the tangential component.

/-- C6: when the circle overlaps a wall rectangle (0 < distanceSq <
radius²), resolution changes the velocity only when the velocity points
into the surface (dot with the outward normal (dx, dy) negative): in that
case the normal component of the velocity has its sign flipped and its
magnitude halved (restitution 0.5) while the tangential component is
exactly unchanged; when the dot is non-negative the velocity is unchanged
(the statement uses the unnormalised normal (dx, dy), a positive multiple
of the unit contact normal). -/
theorem resolveCollision_bounce (b : Ball) (rX rY rS : ℝ)
    (h0 : 0 < collDistSq b rX rY rS)
    (h1 : collDistSq b rX rY rS < b.radius * b.radius) :
    (b.vx * collDx b rX rS + b.vy * collDy b rY rS < 0 →
      (resolveCollision b rX rY rS).vx * collDx b rX rS +
          (resolveCollision b rX rY rS).vy * collDy b rY rS =
        -(0.5) * (b.vx * collDx b rX rS + b.vy * collDy b rY rS) ∧
      (resolveCollision b rX rY rS).vx * (-(collDy b rY rS)) +
          (resolveCollision b rX rY rS).vy * collDx b rX rS =
        b.vx * (-(collDy b rY rS)) + b.vy * collDx b rX rS)
    ∧ (0 ≤ b.vx * collDx b rX rS + b.vy * collDy b rY rS →
      (resolveCollision b rX rY rS).vx = b.vx ∧
      (resolveCollision b rX rY rS).vy = b.vy) := by
  have h0' : 0 < collDx b rX rS * collDx b rX rS + collDy b rY rS * collDy b rY rS := h0
  have h1' : collDx b rX rS * collDx b rX rS + collDy b rY rS * collDy b rY rS <
      b.radius * b.radius := h1
  have hdpos : 0 < Real.sqrt
      (collDx b rX rS * collDx b rX rS + collDy b rY rS * collDy b rY rS) :=
    Real.sqrt_pos.mpr h0'
  have hdd : Real.sqrt (collDx b rX rS * collDx b rX rS + collDy b rY rS * collDy b rY rS) *
      Real.sqrt (collDx b rX rS * collDx b rX rS + collDy b rY rS * collDy b rY rS) =
      collDx b rX rS * collDx b rX rS + collDy b rY rS * collDy b rY rS :=
    Real.mul_self_sqrt h0'.le
  set dx := collDx b rX rS with hdx
  set dy := collDy b rY rS with hdy
  set d := Real.sqrt (dx * dx + dy * dy) with hd
  have hrw : resolveCollision b rX rY rS =
      (if b.vx * (dx / d) + b.vy * (dy / d) < 0 then
        (⟨b.x + dx / d * (b.radius - d), b.y + dy / d * (b.radius - d),
          b.vx - (1 + 0.5) * (b.vx * (dx / d) + b.vy * (dy / d)) * (dx / d),
          b.vy - (1 + 0.5) * (b.vx * (dx / d) + b.vy * (dy / d)) * (dy / d),
          b.radius⟩ : Ball)
      else
        (⟨b.x + dx / d * (b.radius - d), b.y + dy / d * (b.radius - d),
          b.vx, b.vy, b.radius⟩ : Ball)) := by
    simp only [resolveCollision]
    rw [if_pos (And.intro h1' h0')]
  constructor
  · intro hU
    have hdot : b.vx * (dx / d) + b.vy * (dy / d) < 0 := by
      have he : b.vx * (dx / d) + b.vy * (dy / d) = (b.vx * dx + b.vy * dy) / d := by
        ring
      rw [he]
      exact div_neg_of_neg_of_pos hU hdpos
    rw [hrw, if_pos hdot]
    dsimp only
    constructor
    · have expand : (b.vx - (1 + 0.5) * (b.vx * (dx / d) + b.vy * (dy / d)) * (dx / d)) * dx +
          (b.vy - (1 + 0.5) * (b.vx * (dx / d) + b.vy * (dy / d)) * (dy / d)) * dy =
          (b.vx * dx + b.vy * dy) -
            (1 + 0.5) * (b.vx * dx + b.vy * dy) * ((dx * dx + dy * dy) / (d * d)) := by
        ring
      rw [expand, hdd, div_self (ne_of_gt h0')]
      ring
    · ring
  · intro hU
    have hdot : ¬ (b.vx * (dx / d) + b.vy * (dy / d) < 0) := by
      have he : b.vx * (dx / d) + b.vy * (dy / d) = (b.vx * dx + b.vy * dy) / d := by
        ring
      rw [he, not_lt]
      exact div_nonneg hU hdpos.le
    rw [hrw, if_neg hdot]
    exact ⟨rfl, rfl⟩

/-- Witness for C6 at a concrete face contact with incoming velocity. -/
theorem resolveCollision_bounce_witness :
    (bounceBall.vx * collDx bounceBall 0 40 + bounceBall.vy * collDy bounceBall 0 40 < 0 →
      (resolveCollision bounceBall 0 0 40).vx * collDx bounceBall 0 40 +
          (resolveCollision bounceBall 0 0 40).vy * collDy bounceBall 0 40 =
        -(0.5) * (bounceBall.vx * collDx bounceBall 0 40 +
          bounceBall.vy * collDy bounceBall 0 40) ∧
      (resolveCollision bounceBall 0 0 40).vx * (-(collDy bounceBall 0 40)) +
          (resolveCollision bounceBall 0 0 40).vy * collDx bounceBall 0 40 =
        bounceBall.vx * (-(collDy bounceBall 0 40)) +
          bounceBall.vy * collDx bounceBall 0 40)
    ∧ (0 ≤ bounceBall.vx * collDx bounceBall 0 40 + bounceBall.vy * collDy bounceBall 0 40 →
      (resolveCollision bounceBall 0 0 40).vx = bounceBall.vx ∧
      (resolveCollision bounceBall 0 0 40).vy = bounceBall.vy) :=
  resolveCollision_bounce bounceBall 0 0 40
    (by norm_num [collDistSq, collDx, collDy, closestOn, bounceBall, min_def, max_def])
    (by norm_num [collDistSq, collDx, collDy, closestOn, bounceBall, min_def, max_def])

-- C7: positional correction restores exactly radius distance.

theorem closestOn_shift (lo size x mu : ℝ) (hs : 0 ≤ size) (hmu : 0 ≤ mu) :
    closestOn lo size (x + (x - closestOn lo size x) * mu) = closestOn lo size x := by
  rcases le_or_lt x lo with hxlo | hxlo
  · have hc : closestOn lo size x = lo := by
      unfold closestOn
      rw [min_eq_left (by linarith), max_eq_left hxlo]
    rw [hc]
    have hx' : x + (x - lo) * mu ≤ lo := by nlinarith
    unfold closestOn
    rw [min_eq_left (by linarith), max_eq_left hx']
  · rcases le_or_lt x (lo + size) with hxhi | hxhi
    · have hc : closestOn lo size x = x := by
        unfold closestOn
        rw [min_eq_left hxhi, max_eq_right hxlo.le]
      rw [hc]
      have he : x + (x - x) * mu = x := by ring
      rw [he]
      exact hc
    · have hc : closestOn lo size x = lo + size := by
        unfold closestOn
        rw [min_eq_right hxhi.le, max_eq_right (by linarith)]
      rw [hc]
      have hx' : lo + size ≤ x + (x - (lo + size)) * mu := by nlinarith
      unfold closestOn
      rw [min_eq_right hx', max_eq_right (by linarith)]

/-- C7: when a circle overlaps a single wall rectangle (0 < distance <
radius, nonnegative rectangle size), the positional correction pushes the
circle out along the contact normal by exactly radius - distance, and the
squared distance from the corrected centre to the closest point of that
rectangle is exactly radius² (so the final distance equals the radius, in
particular it is at least the radius). -/
theorem resolveCollision_no_penetration (b : Ball) (rX rY rS : ℝ)
    (h0 : 0 < collDistSq b rX rY rS)
    (h1 : collDistSq b rX rY rS < b.radius * b.radius)
    (h2 : 0 < b.radius) (h3 : 0 ≤ rS) :
    collDistSq (resolveCollision b rX rY rS) rX rY rS = b.radius * b.radius ∧
    (resolveCollision b rX rY rS).x =
      b.x + collDx b rX rS / Real.sqrt (collDistSq b rX rY rS) *
        (b.radius - Real.sqrt (collDistSq b rX rY rS)) ∧
    (resolveCollision b rX rY rS).y =
      b.y + collDy b rY rS / Real.sqrt (collDistSq b rX rY rS) *
        (b.radius - Real.sqrt (collDistSq b rX rY rS)) := by
  have h0' : 0 < collDx b rX rS * collDx b rX rS + collDy b rY rS * collDy b rY rS := h0
  have h1' : collDx b rX rS * collDx b rX rS + collDy b rY rS * collDy b rY rS <
      b.radius * b.radius := h1
  set dx := collDx b rX rS with hdx
  set dy := collDy b rY rS with hdy
  set d := Real.sqrt (dx * dx + dy * dy) with hd
  have hdpos : 0 < d := Real.sqrt_pos.mpr h0'
  have hdd : d * d = dx * dx + dy * dy := Real.mul_self_sqrt h0'.le
  have hdr : d < b.radius := by
    have hlt := Real.sqrt_lt_sqrt h0'.le h1'
    rwa [Real.sqrt_mul_self h2.le] at hlt
  have hrw : resolveCollision b rX rY rS =
      (if b.vx * (dx / d) + b.vy * (dy / d) < 0 then
        (⟨b.x + dx / d * (b.radius - d), b.y + dy / d * (b.radius - d),
          b.vx - (1 + 0.5) * (b.vx * (dx / d) + b.vy * (dy / d)) * (dx / d),
          b.vy - (1 + 0.5) * (b.vx * (dx / d) + b.vy * (dy / d)) * (dy / d),
          b.radius⟩ : Ball)
      else
        (⟨b.x + dx / d * (b.radius - d), b.y + dy / d * (b.radius - d),
          b.vx, b.vy, b.radius⟩ : Ball)) := by
    simp only [resolveCollision]
    rw [if_pos (And.intro h1' h0')]
  have hx : (resolveCollision b rX rY rS).x = b.x + dx / d * (b.radius - d) := by
    rw [hrw]
    split <;> rfl
  have hy : (resolveCollision b rX rY rS).y = b.y + dy / d * (b.radius - d) := by
    rw [hrw]
    split <;> rfl
  have hmu : 0 ≤ (b.radius - d) / d := div_nonneg (by linarith) hdpos.le
  have hdsq_eq : collDistSq b rX rY rS = dx * dx + dy * dy := rfl
  refine ⟨?_, ?_, ?_⟩
  · have hcx : closestOn rX rS (resolveCollision b rX rY rS).x = closestOn rX rS b.x := by
      rw [hx]
      have he : b.x + dx / d * (b.radius - d) =
          b.x + (b.x - closestOn rX rS b.x) * ((b.radius - d) / d) := by
        rw [hdx]
        unfold collDx
        ring
      rw [he]
      exact closestOn_shift rX rS b.x ((b.radius - d) / d) h3 hmu
    have hcy : closestOn rY rS (resolveCollision b rX rY rS).y = closestOn rY rS b.y := by
      rw [hy]
      have he : b.y + dy / d * (b.radius - d) =
          b.y + (b.y - closestOn rY rS b.y) * ((b.radius - d) / d) := by
        rw [hdy]
        unfold collDy
        ring
      rw [he]
      exact closestOn_shift rY rS b.y ((b.radius - d) / d) h3 hmu
    have hdx' : collDx (resolveCollision b rX rY rS) rX rS = dx * (b.radius / d) := by
      unfold collDx
      rw [hcx, hx, hdx]
      unfold collDx
      field_simp
      ring
    have hdy' : collDy (resolveCollision b rX rY rS) rY rS = dy * (b.radius / d) := by
      unfold collDy
      rw [hcy, hy, hdy]
      unfold collDy
      field_simp
      ring
    have hout : collDistSq (resolveCollision b rX rY rS) rX rY rS =
        (dx * dx + dy * dy) * (b.radius * b.radius) / (d * d) := by
      unfold collDistSq
      rw [hdx', hdy']
      field_simp
      ring
    rw [hout, hdd, mul_comm, mul_div_assoc, div_self (ne_of_gt h0'), mul_one]
  · rw [hx, hdsq_eq]
  · rw [hy, hdsq_eq]

/-- Witness for C7 at the concrete face contact. -/
theorem resolveCollision_no_penetration_witness :
    collDistSq (resolveCollision pushBall 0 0 40) 0 0 40 = pushBall.radius * pushBall.radius ∧
    (resolveCollision pushBall 0 0 40).x =
      pushBall.x + collDx pushBall 0 40 / Real.sqrt (collDistSq pushBall 0 0 40) *
        (pushBall.radius - Real.sqrt (collDistSq pushBall 0 0 40)) ∧
    (resolveCollision pushBall 0 0 40).y =
      pushBall.y + collDy pushBall 0 40 / Real.sqrt (collDistSq pushBall 0 0 40) *
        (pushBall.radius - Real.sqrt (collDistSq pushBall 0 0 40)) :=
  resolveCollision_no_penetration pushBall 0 0 40
    (by norm_num [collDistSq, collDx, collDy, closestOn, pushBall, min_def, max_def])
    (by norm_num [collDistSq, collDx, collDy, closestOn, pushBall, min_def, max_def])
    (by norm_num [pushBall])
    (by norm_num)

-- C10: no overlap means no effect, and the collision pass never touches
-- the maze.

theorem resolve_noop_of_far (b : Ball) (rX rY rS : ℝ)
    (h : b.radius * b.radius ≤ collDistSq b rX rY rS) :
    resolveCollision b rX rY rS = b := by
  have h' : ¬ (collDx b rX rS * collDx b rX rS + collDy b rY rS * collDy b rY rS <
      b.radius * b.radius) := not_lt.mpr h
  simp only [resolveCollision]
  rw [if_neg]
  intro hc
  exact h' hc.1

theorem foldl_id {α β : Type} (f : α → β → α) (a : α) (l : List β)
    (h : ∀ x ∈ l, f a x = a) : l.foldl f a = a := by
  induction l with
  | nil => rfl
  | cons x xs ih =>
    rw [List.foldl_cons, h x (List.mem_cons_self _ _)]
    exact ih fun y hy => h y (List.mem_cons_of_mem _ hy)

theorem mem_intRange {lo hi a : ℤ} : a ∈ intRange lo hi ↔ lo ≤ a ∧ a ≤ hi := by
  unfold intRange
  constructor
  · intro h
    obtain ⟨i, hmem, hEq⟩ := List.mem_map.mp h
    have hlt : i < (hi + 1 - lo).toNat := List.mem_range.mp hmem
    omega
  · intro h
    refine List.mem_map.mpr ⟨(a - lo).toNat, List.mem_range.mpr (by omega), by omega⟩

/-- C10: a wall rectangle whose closest point is at distance at least the
radius from the ball centre leaves the ball unchanged under
`Maze.resolveCollision`; consequently a full `Maze.checkCollision` pass in
which the circle overlaps no out-of-bounds or WALL cell of the scanned
range is a no-op on the ball; and the collision pass never mutates the
maze (grid, start or goal). -/
theorem collision_noop (m : MazeModel) (b : Ball) (cs rX rY rS : ℝ)
    (h1 : b.radius * b.radius ≤ collDistSq b rX rY rS)
    (h2 : ∀ r c : ℤ,
      ⌊(b.y - b.radius) / cs⌋ ≤ r → r ≤ ⌊(b.y + b.radius) / cs⌋ →
      ⌊(b.x - b.radius) / cs⌋ ≤ c → c ≤ ⌊(b.x + b.radius) / cs⌋ →
      (r < 0 ∨ m.rows ≤ r ∨ c < 0 ∨ m.cols ≤ c ∨ cellOf m.carved ((r, c) : Pos) = 1) →
      b.radius * b.radius ≤ collDistSq b ((c : ℝ) * cs) ((r : ℝ) * cs) cs) :
    resolveCollision b rX rY rS = b ∧
    (checkCollisionS m b cs).2 = b ∧
    (checkCollisionS m b cs).1 = m := by
  refine ⟨resolve_noop_of_far b rX rY rS h1, ?_, rfl⟩
  show (intRange ⌊(b.y - b.radius) / cs⌋ ⌊(b.y + b.radius) / cs⌋).foldl
      (fun br r => checkCellRow m cs ⌊(b.x - b.radius) / cs⌋ ⌊(b.x + b.radius) / cs⌋ r br)
      b = b
  apply foldl_id
  intro r hr
  rw [mem_intRange] at hr
  unfold checkCellRow
  apply foldl_id
  intro c hc
  rw [mem_intRange] at hc
  by_cases hg : r < 0 ∨ m.rows ≤ r ∨ c < 0 ∨ m.cols ≤ c ∨ cellOf m.carved ((r, c) : Pos) = 1
  · rw [if_pos hg]
    exact resolve_noop_of_far b _ _ _ (h2 r c hr.1 hr.2 hc.1 hc.2 hg)
  · rw [if_neg hg]

/-- Witness for C10: the free ball against the far wall square at the
origin, and a full collision pass over its (single-cell) scan range. -/
theorem collision_noop_witness :
    resolveCollision freeBall 0 0 1 = freeBall ∧
    (checkCollisionS wMaze freeBall 1).2 = freeBall ∧
    (checkCollisionS wMaze freeBall 1).1 = wMaze := by
  have hf1 : ⌊((1.5 : ℝ) - 0.35) / 1⌋ = (1 : ℤ) := by
    rw [Int.floor_eq_iff]
    norm_num
  have hf2 : ⌊((1.5 : ℝ) + 0.35) / 1⌋ = (1 : ℤ) := by
    rw [Int.floor_eq_iff]
    norm_num
  refine collision_noop wMaze freeBall 1 0 0 1 ?_ ?_
  · norm_num [collDistSq, collDx, collDy, closestOn, freeBall, min_def, max_def]
  · intro r c hr1 hr2 hc1 hc2 hg
    simp only [freeBall] at hr1 hr2 hc1 hc2
    rw [hf1] at hr1 hc1
    rw [hf2] at hr2 hc2
    have hre : r = 1 := by omega
    have hce : c = 1 := by omega
    rw [hre, hce] at hg
    simp only [wMaze, cellOf] at hg
    rcases hg with h | h | h | h | h
    · omega
    · exact absurd h (by decide)
    · omega
    · exact absurd h (by decide)
    · simp at h

-- C9: the session state machine.

/-- C9: `startGame` from IDLE or GAMEOVER (the specification's FINISHED)
always yields the PLAYING phase with the elapsed time reset to zero at the
start instant and the ball at the start cell's centre with zero velocity;
a PLAYING frame whose goal check (on the post-physics ball) finds the
distance to the goal centre below half a cell switches the phase to
GAMEOVER; and once the phase is not PLAYING, a loop tick is the identity,
so no further physics, collision or goal-check runs (the transition
happens exactly once). -/
theorem game_state_machine (g1 g2 g3 : GameState) (rand : ℕ → ℕ) (now : ℝ)
    (h1 : g1.phase = Phase.IDLE ∨ g1.phase = Phase.GAMEOVER)
    (h2 : g2.phase = Phase.PLAYING)
    (h2d : goalCheckDist g2 (postPhysicsBall g2) < g2.cellSize * 0.5)
    (h3 : g3.phase ≠ Phase.PLAYING) :
    ((startGame g1 rand now).phase = Phase.PLAYING ∧
      now - (startGame g1 rand now).startTime = 0 ∧
      (startGame g1 rand now).maze.start = (1, 1) ∧
      (startGame g1 rand now).ball.x =
        ((startGame g1 rand now).maze.start.1 : ℝ) * g1.cellSize + g1.cellSize / 2 ∧
      (startGame g1 rand now).ball.y =
        ((startGame g1 rand now).maze.start.2 : ℝ) * g1.cellSize + g1.cellSize / 2 ∧
      (startGame g1 rand now).ball.vx = 0 ∧ (startGame g1 rand now).ball.vy = 0) ∧
    ((gameUpdate g2).phase = Phase.GAMEOVER ∧ gameLoop (gameUpdate g2) = gameUpdate g2) ∧
    gameLoop g3 = g3 := by
  have hphase : (gameUpdate g2).phase = Phase.GAMEOVER := by
    simp only [gameUpdate]
    rw [if_pos h2d]
  refine ⟨⟨rfl, sub_self now, rfl, rfl, rfl, rfl, rfl⟩, ⟨hphase, ?_⟩, ?_⟩
  · unfold gameLoop
    rw [if_neg]
    rw [hphase]
    decide
  · unfold gameLoop
    rw [if_neg h3]

/-- Witness for C9 at concrete states: start from IDLE, finish a PLAYING
frame on the goal, and check a non-PLAYING tick is the identity. -/
theorem game_state_machine_witness :
    ((startGame wGame1 (fun _ => 0) 0).phase = Phase.PLAYING ∧
      (0 : ℝ) - (startGame wGame1 (fun _ => 0) 0).startTime = 0 ∧
      (startGame wGame1 (fun _ => 0) 0).maze.start = (1, 1) ∧
      (startGame wGame1 (fun _ => 0) 0).ball.x =
        ((startGame wGame1 (fun _ => 0) 0).maze.start.1 : ℝ) * wGame1.cellSize +
          wGame1.cellSize / 2 ∧
      (startGame wGame1 (fun _ => 0) 0).ball.y =
        ((startGame wGame1 (fun _ => 0) 0).maze.start.2 : ℝ) * wGame1.cellSize +
          wGame1.cellSize / 2 ∧
      (startGame wGame1 (fun _ => 0) 0).ball.vx = 0 ∧
      (startGame wGame1 (fun _ => 0) 0).ball.vy = 0) ∧
    ((gameUpdate wGame2).phase = Phase.GAMEOVER ∧
      gameLoop (gameUpdate wGame2) = gameUpdate wGame2) ∧
    gameLoop wGame3 = wGame3 := by
  have hup : Ball.update wBall9 (wGame2.input.1 * CFG.acceleration)
      (wGame2.input.2 * CFG.acceleration) = wBall9 := by
    show Ball.update wBall9 ((0 : ℝ) * CFG.acceleration) ((0 : ℝ) * CFG.acceleration) = wBall9
    simp only [Ball.update, wBall9, CFG.friction, CFG.acceleration, Ball.mk.injEq]
    norm_num
  have hf1 : ⌊((1.5 : ℝ) - 0.35) / 1⌋ = (1 : ℤ) := by
    rw [Int.floor_eq_iff]
    norm_num
  have hf2 : ⌊((1.5 : ℝ) + 0.35) / 1⌋ = (1 : ℤ) := by
    rw [Int.floor_eq_iff]
    norm_num
  have hcoll : (checkCollisionS wMaze wBall9 1).2 = wBall9 := by
    show (intRange ⌊(wBall9.y - wBall9.radius) / 1⌋ ⌊(wBall9.y + wBall9.radius) / 1⌋).foldl
        (fun br r => checkCellRow wMaze 1 ⌊(wBall9.x - wBall9.radius) / 1⌋
          ⌊(wBall9.x + wBall9.radius) / 1⌋ r br) wBall9 = wBall9
    simp only [wBall9]
    rw [hf1, hf2, show intRange 1 1 = [(1 : ℤ)] from by decide]
    simp only [List.foldl_cons, List.foldl_nil]
    unfold checkCellRow
    rw [show intRange 1 1 = [(1 : ℤ)] from by decide]
    simp only [List.foldl_cons, List.foldl_nil]
    rw [if_neg (by decide)]
  have hpost : postPhysicsBall wGame2 = wBall9 := by
    unfold postPhysicsBall
    rw [show wGame2.maze = wMaze from rfl, show wGame2.cellSize = (1 : ℝ) from rfl,
      show wGame2.ball = wBall9 from rfl, hup, hcoll]
  have hdist : goalCheckDist wGame2 wBall9 = 0 := by
    unfold goalCheckDist
    rw [show wGame2.maze = wMaze from rfl, show wGame2.cellSize = (1 : ℝ) from rfl]
    simp only [wMaze, wBall9]
    norm_num [Real.sqrt_eq_zero]
  exact game_state_machine wGame1 wGame2 wGame3 (fun _ => 0) 0 (Or.inl rfl) rfl
    (by
      rw [hpost, hdist, show wGame2.cellSize = (1 : ℝ) from rfl]
      norm_num)
    (by decide)
